import Mathlib

/-!
# MS-DTYP primitives of `internal/smb2/dtyp.go`

A shallow embedding of the FILETIME, SID, ACE and ACL codecs.

* A Go `byte` is `Fin 256`; a `[]byte` is a list of bytes whose capacity equals its
  length, so every index or slice expression that leaves the length is the run-time
  panic of Go, modelled as `none`.
* `uint16`, `uint32` and `uint64` values are natural numbers, reduced modulo `2 ^ w`
  wherever the Go operation can wrap; `int64` values are integers wrapped by `int64`.
* Functions that write into a buffer return the buffer after the writes.
-/

namespace Smb2

/-- A Go `byte` (`uint8`). -/
abbrev Byte := Fin 256

/-- A Go `[]byte` with `cap = len`. -/
abbrev Bytes := List Byte

/-- Conversion `byte(v)` of an unsigned integer: the low eight bits. -/
def byte (v : Nat) : Byte := ⟨v % 256, Nat.mod_lt v (by decide)⟩

/-- Index expression `c[i]`; `none` is the index-out-of-range panic. -/
def index {α : Type} (c : List α) (i : Nat) : Option α := c.get? i

/-- Slice expression `c[lo:hi]`; `none` is the slice-bounds-out-of-range panic. -/
def slice {α : Type} (c : List α) (lo hi : Nat) : Option (List α) :=
  if lo ≤ hi ∧ hi ≤ c.length then some ((c.take hi).drop lo) else none

/-- Slice expression `c[lo:]`. -/
def sliceFrom {α : Type} (c : List α) (lo : Nat) : Option (List α) :=
  if lo ≤ c.length then some (c.drop lo) else none

/-- Assignment `p[i] = v`; `none` is the index-out-of-range panic. -/
def assign {α : Type} (p : List α) (i : Nat) (v : α) : Option (List α) :=
  if i < p.length then some (p.set i v) else none

/-- Running `f` on the sub-slice `p[lo:hi]`, which shares its storage with `p`: the
bytes `f` leaves in the sub-slice replace `p[lo:hi]`. -/
def through (p : Bytes) (lo hi : Nat) (f : Bytes → Option Bytes) : Option Bytes :=
  match slice p lo hi with
  | none => none
  | some b =>
    match f b with
    | none => none
    | some b' => some (p.take lo ++ b' ++ p.drop hi)

/-- Modelled from the spec: the package variable `le` is declared outside this file; the
spec names it the little-endian byte-order helper, so `le.Uint16` is
`binary.LittleEndian.Uint16`: `_ = b[1]; uint16(b[0]) | uint16(b[1])<<8`. -/
def le.Uint16 (b : Bytes) : Option Nat := do
  let _ ← index b 1
  let b0 ← index b 0
  let b1 ← index b 1
  pure (b0.val ||| b1.val <<< 8)

/-- Modelled from the spec: `le.Uint32` is `binary.LittleEndian.Uint32`:
`_ = b[3]; uint32(b[0]) | uint32(b[1])<<8 | uint32(b[2])<<16 | uint32(b[3])<<24`. -/
def le.Uint32 (b : Bytes) : Option Nat := do
  let _ ← index b 3
  let b0 ← index b 0
  let b1 ← index b 1
  let b2 ← index b 2
  let b3 ← index b 3
  pure (b0.val ||| b1.val <<< 8 ||| b2.val <<< 16 ||| b3.val <<< 24)

/-- Modelled from the spec: `le.PutUint32` is `binary.LittleEndian.PutUint32`:
`_ = b[3]; b[0] = byte(v); b[1] = byte(v >> 8); b[2] = byte(v >> 16); b[3] = byte(v >> 24)`. -/
def le.PutUint32 (b : Bytes) (v : Nat) : Option Bytes := do
  let _ ← index b 3
  let b ← assign b 0 (byte v)
  let b ← assign b 1 (byte (v >>> 8))
  let b ← assign b 2 (byte (v >>> 16))
  let b ← assign b 3 (byte (v >>> 24))
  pure b

/-! ## Filetime -/

/-- The struct `Filetime`; both fields are `uint32`. -/
structure Filetime where
  LowDateTime : Nat
  HighDateTime : Nat
deriving DecidableEq, Repr

/-- The fields of a `Filetime` are in the range of `uint32`. -/
def Filetime.WF (ft : Filetime) : Prop :=
  ft.LowDateTime < 2 ^ 32 ∧ ft.HighDateTime < 2 ^ 32

instance (ft : Filetime) : Decidable ft.WF := by
  unfold Filetime.WF; infer_instance

/-- Two's-complement wrap of an integer into the range of `int64`. -/
def int64 (x : Int) : Int := (x + 2 ^ 63) % 2 ^ 64 - 2 ^ 63

/-- Conversion `uint32(x)` of an `int64`: the low 32 bits. -/
def uint32 (x : Int) : Nat := (x % 2 ^ 32).toNat

/-- The method `(*Filetime).Size`. -/
def Filetime.Size (_ft : Filetime) : Nat := 8

/-- The method `(*Filetime).Encode`. -/
def Filetime.Encode (ft : Filetime) (p : Bytes) : Option Bytes := do
  let p ← through p 0 4 (fun b => le.PutUint32 b ft.LowDateTime)
  let p ← through p 4 8 (fun b => le.PutUint32 b ft.HighDateTime)
  pure p

/-- The method `(*Filetime).Nanoseconds`; `int64(h)<<32` is `h * 2 ^ 32` wrapped. -/
def Filetime.Nanoseconds (ft : Filetime) : Int :=
  let nsec := int64 (int64 ((ft.HighDateTime : Int) * 2 ^ 32) + (ft.LowDateTime : Int))
  let nsec := int64 (nsec - 116444736000000000)
  let nsec := int64 (nsec * 100)
  nsec

/-- The function `NsecToFiletime`; `/` of Go truncates toward zero, `x & 0xffffffff` is
`x % 2 ^ 32` in two's complement and `>>` is the arithmetic shift. -/
def NsecToFiletime (nsec : Int) : Filetime :=
  let nsec := int64 (Int.tdiv nsec 100)
  let nsec := int64 (nsec + 116444736000000000)
  { LowDateTime := uint32 (nsec % 2 ^ 32)
    HighDateTime := uint32 ((nsec >>> (32 : Nat)) % 2 ^ 32) }

/-- The method `FiletimeDecoder.LowDateTime`. -/
def FiletimeDecoder.LowDateTime (ft : Bytes) : Option Nat := do
  let b ← slice ft 0 4
  le.Uint32 b

/-- The method `FiletimeDecoder.HighDateTime`. -/
def FiletimeDecoder.HighDateTime (ft : Bytes) : Option Nat := do
  let b ← slice ft 4 8
  le.Uint32 b

/-- The method `FiletimeDecoder.Decode`. -/
def FiletimeDecoder.Decode (ft : Bytes) : Option Filetime := do
  let lo ← FiletimeDecoder.LowDateTime ft
  let hi ← FiletimeDecoder.HighDateTime ft
  pure { LowDateTime := lo, HighDateTime := hi }

/-! ## Sid -/

/-- A Go `string`. -/
abbrev GoString := String

/-- Modelled from the spec: `strconv.FormatUint` of the Go library, the digits of `n` in
`base` (lowercase letters above nine), most significant first. -/
def strconv.FormatUint (n : Nat) (base : Nat) : String := String.mk (Nat.toDigits base n)

/-- Modelled from the spec: `strconv.Itoa` of the Go library, the decimal rendering of
a signed integer. -/
def strconv.Itoa (i : Int) : String :=
  if i < 0 then "-" ++ strconv.FormatUint i.natAbs 10 else strconv.FormatUint i.natAbs 10

/-- Modelled from the spec: `strings.Join` of the Go library. -/
def strings.Join (list : List String) (sep : String) : String := sep.intercalate list

/-- The struct `Sid`: `Revision` is a `uint8`, `IdentifierAuthority` a `uint64` and
`SubAuthority` a `[]uint32`. -/
structure Sid where
  Revision : Byte
  IdentifierAuthority : Nat
  SubAuthority : List Nat
deriving DecidableEq, Repr

/-- The fields of a `Sid` are in the range of their Go types. -/
def Sid.WF (sid : Sid) : Prop :=
  sid.IdentifierAuthority < 2 ^ 64 ∧ ∀ a ∈ sid.SubAuthority, a < 2 ^ 32

instance (sid : Sid) : Decidable sid.WF := by
  unfold Sid.WF; infer_instance

/-- The method `(*Sid).String`. -/
def Sid.String (sid : Sid) : GoString :=
  let list : List GoString := []
  let list := list ++ ["S"]
  let list := list ++ [strconv.Itoa (sid.Revision.val : Int)]
  let list :=
    if sid.IdentifierAuthority < 2 ^ 32 then
      list ++ [strconv.FormatUint sid.IdentifierAuthority 10]
    else
      list ++ ["0x" ++ strconv.FormatUint sid.IdentifierAuthority 16]
  let list := sid.SubAuthority.foldl (fun list a => list ++ [strconv.FormatUint a 10]) list
  strings.Join list "-"

/-- The method `(*Sid).Size`. -/
def Sid.Size (sid : Sid) : Nat := 8 + sid.SubAuthority.length * 4

/-- The second loop of `(*Sid).Encode`, over the sub-authorities left to write, with the
offset `off` it has reached. -/
def Sid.EncodeSubAuthority : List Nat → Nat → Bytes → Option Bytes
  | [], _, p => some p
  | u :: us, off, p => do
    let p ← through p off (off + 4) (fun b => le.PutUint32 b u)
    Sid.EncodeSubAuthority us (off + 4) p

/-- The method `(*Sid).Encode`. -/
def Sid.Encode (sid : Sid) (p : Bytes) : Option Bytes := do
  let p ← assign p 0 sid.Revision
  let p ← assign p 1 (byte sid.SubAuthority.length)
  let p ← (List.range 6).foldlM
    (fun p j => assign p (2 + j) (byte (sid.IdentifierAuthority >>> (8 * (5 - j))))) p
  Sid.EncodeSubAuthority sid.SubAuthority 8 p

/-- The method `SidDecoder.Revision`. -/
def SidDecoder.Revision (c : Bytes) : Option Byte := index c 0

/-- The method `SidDecoder.SubAuthorityCount`. -/
def SidDecoder.SubAuthorityCount (c : Bytes) : Option Byte := index c 1

/-- The method `SidDecoder.IsInvalid`. -/
def SidDecoder.IsInvalid (c : Bytes) : Option Bool :=
  if c.length < 8 then some true
  else do
    let n ← SidDecoder.SubAuthorityCount c
    if c.length < 8 + n.val * 4 then some true else some false

/-- The method `SidDecoder.IdentifierAuthority`; the sum is a `uint64`. -/
def SidDecoder.IdentifierAuthority (c : Bytes) : Option Nat :=
  (List.range 6).foldlM
    (fun u j => do
      let b ← index c (7 - j)
      pure ((u + b.val <<< (8 * j)) % 2 ^ 64)) 0

/-- The loop of `SidDecoder.SubAuthority`: the counter `i` is a `uint8`, so `i++` is the
successor modulo 256. -/
def SidDecoder.SubAuthorityLoop (c : Bytes) (count : Byte) (i : Byte) (off : Nat)
    (as : List Nat) : Option (List Nat) :=
  if _h : i < count then
    match slice c off (off + 4) with
    | none => none
    | some b =>
      match le.Uint32 b with
      | none => none
      | some v =>
        match assign as i.val v with
        | none => none
        | some as => SidDecoder.SubAuthorityLoop c count (i + 1) (off + 4) as
  else some as
termination_by count.val - i.val
decreasing_by
  have h1 : i.val < count.val := _h
  have h3 : (i + 1).val = i.val + 1 := by
    rw [Fin.val_add]
    simp
    omega
  omega

/-- The method `SidDecoder.SubAuthority`. -/
def SidDecoder.SubAuthority (c : Bytes) : Option (List Nat) := do
  let count ← SidDecoder.SubAuthorityCount c
  let as := List.replicate count.val 0
  SidDecoder.SubAuthorityLoop c count 0 8 as

/-- The method `SidDecoder.Decode`. -/
def SidDecoder.Decode (c : Bytes) : Option Sid := do
  let r ← SidDecoder.Revision c
  let ia ← SidDecoder.IdentifierAuthority c
  let sa ← SidDecoder.SubAuthority c
  pure { Revision := r, IdentifierAuthority := ia, SubAuthority := sa }

/-! ## Ace -/

/-- The method `AceDecoder.Size`. -/
def AceDecoder.Size (c : Bytes) : Option Nat := do
  let b ← slice c 2 4
  le.Uint16 b

/-- The method `AceDecoder.IsInvalid`. -/
def AceDecoder.IsInvalid (c : Bytes) : Option Bool :=
  if c.length < 4 then some true
  else do
    let s ← AceDecoder.Size c
    if c.length < 4 + s then some true else some false

/-- The method `AceDecoder.AceType`. -/
def AceDecoder.AceType (c : Bytes) : Option Byte := index c 0

/-- The method `AceDecoder.Flags`. -/
def AceDecoder.Flags (c : Bytes) : Option Byte := index c 1

/-- The method `AceDecoder.AccessMask`. -/
def AceDecoder.AccessMask (c : Bytes) : Option Nat := do
  let b ← slice c 4 8
  le.Uint32 b

/-- The method `AceDecoder.Sid`. -/
def AceDecoder.Sid (c : Bytes) : Option String := do
  let b ← sliceFrom c 8
  let sid ← SidDecoder.Decode b
  pure sid.String

/-! ## Acl -/

/-- The method `AclDecoder.Size`. -/
def AclDecoder.Size (c : Bytes) : Option Nat := do
  let b ← slice c 2 4
  le.Uint16 b

/-- The method `AclDecoder.IsInvalid`. -/
def AclDecoder.IsInvalid (c : Bytes) : Option Bool :=
  if c.length < 8 then some true
  else do
    let s ← AclDecoder.Size c
    if c.length < 8 + s then some true else some false

/-- The loop of `AclDecoder.Decode`, by the number of iterations left (`int(count) - i`):
the view at the cursor is appended and the cursor advances by its declared size. -/
def AclDecoder.DecodeLoop : Nat → Bytes → List Bytes → Option (List Bytes)
  | 0, _, acl => some acl
  | n + 1, aceData, acl => do
    let ad := aceData
    let acl := acl ++ [ad]
    let s ← AceDecoder.Size ad
    let aceData ← sliceFrom aceData s
    AclDecoder.DecodeLoop n aceData acl

/-- The method `AclDecoder.Decode`. -/
def AclDecoder.Decode (c : Bytes) : Option (List Bytes) := do
  let acl : List Bytes := []
  let b ← slice c 4 6
  let count ← le.Uint16 b
  let aceData ← sliceFrom c 8
  AclDecoder.DecodeLoop count aceData acl

/-! ## Slices with spare capacity

The walk of `AclDecoder.Decode` once more, over slices whose capacity may exceed their
length: Go checks an index against the length, the upper bound of a slice expression
`c[lo:hi]` against the capacity, and the lower bound of `c[lo:]` against the length. -/

/-- A Go `[]byte` with its spare capacity: `data` lists the bytes of the backing array
from the first byte of the slice up to its capacity; the first `len` of them are the
elements of the slice. -/
structure Slice where
  data : Bytes
  len : Nat
deriving DecidableEq, Repr

/-- The capacity `cap(s)`. -/
def Slice.cap (s : Slice) : Nat := s.data.length

/-- The length of a slice does not exceed its capacity. -/
def Slice.WF (s : Slice) : Prop := s.len ≤ s.cap

instance (s : Slice) : Decidable s.WF := by
  unfold Slice.WF; infer_instance

/-- The slice without spare capacity over the bytes `c`. -/
def Slice.ofBytes (c : Bytes) : Slice := ⟨c, c.length⟩

/-- Index expression `s[i]`: the index is checked against the length. -/
def Slice.index (s : Slice) (i : Nat) : Option Byte :=
  if i < s.len then s.data.get? i else none

/-- Slice expression `s[lo:hi]`: the upper bound is checked against the capacity. -/
def Slice.slice (s : Slice) (lo hi : Nat) : Option Slice :=
  if lo ≤ hi ∧ hi ≤ s.cap then some ⟨s.data.drop lo, hi - lo⟩ else none

/-- Slice expression `s[lo:]`: the upper bound is the length. -/
def Slice.sliceFrom (s : Slice) (lo : Nat) : Option Slice :=
  if lo ≤ s.len then some ⟨s.data.drop lo, s.len - lo⟩ else none

/-- Modelled from the spec: `le.Uint16` (`binary.LittleEndian.Uint16`) on a slice with
spare capacity. -/
def le.Uint16Cap (b : Slice) : Option Nat := do
  let _ ← b.index 1
  let b0 ← b.index 0
  let b1 ← b.index 1
  pure (b0.val ||| b1.val <<< 8)

/-- The method `AceDecoder.Size` on a slice with spare capacity. -/
def AceDecoder.SizeCap (c : Slice) : Option Nat := do
  let b ← c.slice 2 4
  le.Uint16Cap b

/-- The loop of `AclDecoder.Decode` on slices with spare capacity, by the number of
iterations left. -/
def AclDecoder.DecodeLoopCap : Nat → Slice → List Slice → Option (List Slice)
  | 0, _, acl => some acl
  | n + 1, aceData, acl => do
    let ad := aceData
    let acl := acl ++ [ad]
    let s ← AceDecoder.SizeCap ad
    let aceData ← aceData.sliceFrom s
    AclDecoder.DecodeLoopCap n aceData acl

/-- The method `AclDecoder.Decode` on a slice with spare capacity. -/
def AclDecoder.DecodeCap (c : Slice) : Option (List Slice) := do
  let acl : List Slice := []
  let b ← c.slice 4 6
  let count ← le.Uint16Cap b
  let aceData ← c.sliceFrom 8
  AclDecoder.DecodeLoopCap count aceData acl

/-! ## Reference readings of a buffer, used to state the properties -/

/-- The little-endian `uint16` stored in `c` at offset `k` (absent bytes count as 0). -/
def u16At (c : Bytes) (k : Nat) : Nat := (c.getD k 0).val + (c.getD (k + 1) 0).val * 256

/-- The little-endian `uint32` stored in `c` at offset `k` (absent bytes count as 0). -/
def u32At (c : Bytes) (k : Nat) : Nat :=
  (c.getD k 0).val + (c.getD (k + 1) 0).val * 256 + (c.getD (k + 2) 0).val * 65536
    + (c.getD (k + 3) 0).val * 16777216

/-- The four bytes of the `uint32` `v`, least significant first. -/
def leBytes32 (v : Nat) : Bytes := [byte v, byte (v >>> 8), byte (v >>> 16), byte (v >>> 24)]

/-- The little-endian bytes of a sequence of `uint32` values, concatenated. -/
def leBytes32s : List Nat → Bytes
  | [] => []
  | u :: us => leBytes32 u ++ leBytes32s us

/-- The six bytes of the low 48 bits of `u`, most significant first. -/
def beBytes48 (u : Nat) : Bytes :=
  [byte (u >>> 40), byte (u >>> 32), byte (u >>> 24), byte (u >>> 16), byte (u >>> 8), byte u]

/-- The cursor of the ACL walk before ACE `i`, for a walk that starts at offset `k`:
`k` plus the declared sizes (the `uint16` two bytes after each cursor) of the ACEs
`0 .. i-1`. The walk of `AclDecoder.Decode` starts at `k = 8`. -/
def aceCursor (c : Bytes) (k : Nat) : Nat → Nat
  | 0 => k
  | i + 1 => aceCursor c k i + u16At c (aceCursor c k i + 2)

/-- An access-allowed ACE for `S-1-5-32-544` with the declared size 24. -/
def sampleAce : Bytes :=
  [0, 3, 24, 0, 255, 1, 31, 0, 1, 2, 0, 0, 0, 0, 0, 5, 32, 0, 0, 0, 32, 2, 0, 0]

/-- An ACL of two ACEs: the header declares the size 56 and the count 2. -/
def sampleAcl : Bytes := [2, 0, 56, 0, 2, 0, 0, 0] ++ sampleAce ++ sampleAce

/-- An ACL of one ACE with the declared size 32, followed by eight more bytes. -/
def sampleAclTrailing : Bytes :=
  [2, 0, 32, 0, 1, 0, 0, 0] ++ sampleAce ++ [0, 0, 0, 0, 0, 0, 0, 0]

/-- The characters of `-w1-w2-...`: every word preceded by a dash. -/
def dashed : List (List Char) → List Char
  | [] => []
  | w :: ws => '-' :: (w ++ dashed ws)

/-- The words that follow the leading `S` in the string form the spec describes: the
revision in decimal, the authority (in decimal below `2^32`, otherwise `0x` and its
hexadecimal digits), and every sub-authority in decimal, in order. -/
def Sid.words (sid : Sid) : List (List Char) :=
  Nat.toDigits 10 sid.Revision.val
    :: (if sid.IdentifierAuthority < 2 ^ 32 then Nat.toDigits 10 sid.IdentifierAuthority
        else '0' :: 'x' :: Nat.toDigits 16 sid.IdentifierAuthority)
    :: sid.SubAuthority.map (Nat.toDigits 10)

/-- The string form the spec describes for a `Sid`: `S` and its words, joined by
dashes. -/
def Sid.StringSpec (sid : Sid) : GoString := String.mk ('S' :: dashed sid.words)

/-! # Properties -/

/-! ## Bytes, slices and the little-endian helpers -/

theorem lor_shiftLeft (a b k : Nat) (ha : a < 2 ^ k) : a ||| b <<< k = a + b * 2 ^ k := by
  rw [Nat.lor_comm, Nat.shiftLeft_eq, Nat.mul_comm, ← Nat.mul_add_lt_is_or ha]
  omega

theorem index_of_lt {α : Type} (c : List α) (i : Nat) (d : α) (h : i < c.length) :
    index c i = some (c.getD i d) := by
  simp [index, List.getD, List.getElem?_eq_getElem h]

theorem index_of_le {α : Type} (c : List α) (i : Nat) (h : c.length ≤ i) :
    index c i = none := by
  simp [index, h]

theorem le_Uint16_eq (b : Bytes) :
    le.Uint16 b = if 2 ≤ b.length then
      some ((b.getD 0 0).val + (b.getD 1 0).val * 256) else none := by
  match b with
  | [] => rfl
  | [_] => rfl
  | b0 :: b1 :: t =>
    have h0 := b0.isLt
    simp [le.Uint16, index, lor_shiftLeft b0.val b1.val 8 (by omega)]

theorem le_Uint32_eq (b : Bytes) :
    le.Uint32 b = if 4 ≤ b.length then
      some ((b.getD 0 0).val + (b.getD 1 0).val * 256 + (b.getD 2 0).val * 65536
        + (b.getD 3 0).val * 16777216) else none := by
  match b with
  | [] => rfl
  | [_] => rfl
  | [_, _] => rfl
  | [_, _, _] => rfl
  | b0 :: b1 :: b2 :: b3 :: t =>
    have h0 := b0.isLt
    have h1 := b1.isLt
    have h2 := b2.isLt
    have e1 := lor_shiftLeft b0.val b1.val 8 (by omega)
    have e2 := lor_shiftLeft (b0.val + b1.val * 2 ^ 8) b2.val 16 (by omega)
    have e3 := lor_shiftLeft (b0.val + b1.val * 2 ^ 8 + b2.val * 2 ^ 16) b3.val 24 (by omega)
    simp only [le.Uint32, index, List.get?_cons_succ, List.get?_cons_zero, Option.pure_def,
      Option.bind_eq_bind, Option.some_bind, e1, e2, e3]
    simp

theorem getD_slice (c : Bytes) (lo hi i : Nat) (h : lo + i < hi) :
    ((c.take hi).drop lo).getD i 0 = c.getD (lo + i) 0 := by
  simp only [List.getD_eq_getElem?_getD, List.getElem?_drop, List.getElem?_take]
  simp [h]

theorem length_slice (c : Bytes) (lo hi : Nat) (h : hi ≤ c.length) :
    ((c.take hi).drop lo).length = hi - lo := by
  simp [Nat.min_eq_left h]

theorem slice_Uint16 (c : Bytes) (k : Nat) :
    (slice c k (k + 2)).bind le.Uint16 = if k + 2 ≤ c.length then some (u16At c k) else none := by
  by_cases h : k + 2 ≤ c.length
  · have hl := length_slice c k (k + 2) h
    simp only [slice, h, and_true, Nat.le_add_right, if_true, Option.some_bind, le_Uint16_eq, hl]
    have e0 := getD_slice c k (k + 2) 0 (by omega)
    have e1 := getD_slice c k (k + 2) 1 (by omega)
    simp [e0, e1, u16At]
  · simp [slice, h]

theorem slice_Uint32 (c : Bytes) (k : Nat) :
    (slice c k (k + 4)).bind le.Uint32 = if k + 4 ≤ c.length then some (u32At c k) else none := by
  by_cases h : k + 4 ≤ c.length
  · have hl := length_slice c k (k + 4) h
    simp only [slice, h, and_true, Nat.le_add_right, if_true, Option.some_bind, le_Uint32_eq, hl]
    have e0 := getD_slice c k (k + 4) 0 (by omega)
    have e1 := getD_slice c k (k + 4) 1 (by omega)
    have e2 := getD_slice c k (k + 4) 2 (by omega)
    have e3 := getD_slice c k (k + 4) 3 (by omega)
    simp [e0, e1, e2, e3, u32At, Nat.add_assoc]
  · simp [slice, h]

/-! ## The validity checks -/

theorem SidDecoder_IsInvalid_eq (c : Bytes) :
    SidDecoder.IsInvalid c
      = some (decide (c.length < 8 ∨ c.length < 8 + 4 * (c.getD 1 0).val)) := by
  unfold SidDecoder.IsInvalid
  by_cases h : c.length < 8
  · simp [h]
  · have h1 := index_of_lt c 1 0 (by omega)
    simp only [h, if_false, SidDecoder.SubAuthorityCount, h1, Option.bind_eq_bind,
      Option.some_bind, false_or]
    by_cases h2 : c.length < 8 + (c.getD 1 0).val * 4
    · have h3 : c.length < 8 + 4 * (c.getD 1 0).val := by omega
      rw [if_pos h2, decide_eq_true h3]
    · have h3 : ¬ c.length < 8 + 4 * (c.getD 1 0).val := by omega
      rw [if_neg h2, decide_eq_false h3]

/-- C6: on every buffer, also the empty one and those shorter than two bytes,
`SidDecoder.IsInvalid` returns a boolean without any out-of-range access, and the boolean
is true exactly when `len(c) < 8` or `len(c) < 8 + 4*c[1]`; it is true on an 8-byte buffer
whose count byte is 2 and false on a 16-byte buffer whose count byte is 2. -/
theorem SidDecoder_IsInvalid_iff (c : Bytes) :
    (∃ r, SidDecoder.IsInvalid c = some r ∧
      (r = true ↔ c.length < 8 ∨ c.length < 8 + 4 * (c.getD 1 0).val)) ∧
    (c.length = 8 → index c 1 = some 2 → SidDecoder.IsInvalid c = some true) ∧
    (c.length = 16 → index c 1 = some 2 → SidDecoder.IsInvalid c = some false) := by
  refine ⟨⟨_, SidDecoder_IsInvalid_eq c, by simp⟩, ?_, ?_⟩
  · intro hl h1
    have h2 := index_of_lt c 1 0 (by omega)
    rw [h1] at h2
    have h3 : c.getD 1 0 = 2 := (Option.some.inj h2).symm
    rw [SidDecoder_IsInvalid_eq, h3, hl]
    decide
  · intro hl h1
    have h2 := index_of_lt c 1 0 (by omega)
    rw [h1] at h2
    have h3 : c.getD 1 0 = 2 := (Option.some.inj h2).symm
    rw [SidDecoder_IsInvalid_eq, h3, hl]
    decide

theorem AceDecoder_Size_eq (c : Bytes) :
    AceDecoder.Size c = if 4 ≤ c.length then some (u16At c 2) else none := by
  have h := slice_Uint16 c 2
  simpa [AceDecoder.Size] using h

theorem AceDecoder_IsInvalid_eq (c : Bytes) :
    AceDecoder.IsInvalid c = some (decide (c.length < 4 ∨ c.length < 4 + u16At c 2)) := by
  unfold AceDecoder.IsInvalid
  by_cases h : c.length < 4
  · simp [h]
  · have h4 : 4 ≤ c.length := by omega
    simp only [h, if_false, AceDecoder_Size_eq, h4, if_true, Option.bind_eq_bind,
      Option.some_bind, false_or]
    by_cases h2 : c.length < 4 + u16At c 2 <;> simp [h2]

/-- C7: on every buffer, also those shorter than four bytes, `AceDecoder.IsInvalid`
returns a boolean without any out-of-range access, and the boolean is true exactly when
`len(c) < 4` or `len(c) < 4 + s`, with `s` the little-endian `uint16` at `c[2:4]`; so it
is true whenever the declared size exceeds the length of the buffer. -/
theorem AceDecoder_IsInvalid_iff (c : Bytes) :
    (∃ r, AceDecoder.IsInvalid c = some r ∧
      (r = true ↔ c.length < 4 ∨ c.length < 4 + u16At c 2)) ∧
    (∀ s, (slice c 2 4).bind le.Uint16 = some s → s = u16At c 2) ∧
    (c.length < u16At c 2 → AceDecoder.IsInvalid c = some true) := by
  refine ⟨⟨_, AceDecoder_IsInvalid_eq c, by simp⟩, ?_, ?_⟩
  · intro s hs
    have h := slice_Uint16 c 2
    rw [hs] at h
    by_cases h4 : 2 + 2 ≤ c.length
    · rw [if_pos h4] at h
      exact Option.some.inj h
    · rw [if_neg h4] at h
      exact absurd h (by simp)
  · intro h
    rw [AceDecoder_IsInvalid_eq]
    have : c.length < 4 ∨ c.length < 4 + u16At c 2 := Or.inr (by omega)
    simp [this]

/-! ## Filetime -/

theorem le_PutUint32_eq (b : Bytes) (v : Nat) :
    le.PutUint32 b v = if 4 ≤ b.length then
      some ([byte v, byte (v >>> 8), byte (v >>> 16), byte (v >>> 24)] ++ b.drop 4)
      else none := by
  match b with
  | [] => rfl
  | [_] => rfl
  | [_, _] => rfl
  | [_, _, _] => rfl
  | b0 :: b1 :: b2 :: b3 :: t =>
    simp [le.PutUint32, index, assign]

theorem through_PutUint32 (p : Bytes) (lo v : Nat) :
    through p lo (lo + 4) (fun b => le.PutUint32 b v) = if lo + 4 ≤ p.length then
      some (p.take lo ++ [byte v, byte (v >>> 8), byte (v >>> 16), byte (v >>> 24)]
        ++ p.drop (lo + 4)) else none := by
  by_cases h : lo + 4 ≤ p.length
  · have hl := length_slice p lo (lo + 4) h
    simp [through, slice, h, le_PutUint32_eq, hl]
  · simp [through, slice, h]

theorem byte_val (v : Nat) : (byte v).val = v % 256 := rfl

theorem u32At_leBytes (v : Nat) (hv : v < 2 ^ 32) (t : Bytes) :
    u32At ([byte v, byte (v >>> 8), byte (v >>> 16), byte (v >>> 24)] ++ t) 0 = v := by
  simp only [u32At, List.cons_append, List.nil_append, List.getD_cons_zero,
    List.getD_cons_succ, byte_val, Nat.shiftRight_eq_div_pow, Nat.zero_add]
  omega

theorem Filetime_Encode_eq (ft : Filetime) (p : Bytes) (h : 8 ≤ p.length) :
    ft.Encode p = some
      ([byte ft.LowDateTime, byte (ft.LowDateTime >>> 8), byte (ft.LowDateTime >>> 16),
        byte (ft.LowDateTime >>> 24), byte ft.HighDateTime, byte (ft.HighDateTime >>> 8),
        byte (ft.HighDateTime >>> 16), byte (ft.HighDateTime >>> 24)] ++ p.drop 8) := by
  have h1 := through_PutUint32 p 0 ft.LowDateTime
  rw [if_pos (by omega)] at h1
  simp only [Filetime.Encode, h1, Option.bind_eq_bind, Option.some_bind, Option.pure_def]
  rw [through_PutUint32, if_pos (by simp; omega)]
  simp

theorem FiletimeDecoder_Decode_eq (c : Bytes) (h : 8 ≤ c.length) :
    FiletimeDecoder.Decode c = some ⟨u32At c 0, u32At c 4⟩ := by
  have h1 := slice_Uint32 c 0
  have h2 := slice_Uint32 c 4
  rw [if_pos (by omega)] at h1 h2
  simp [FiletimeDecoder.Decode, FiletimeDecoder.LowDateTime, FiletimeDecoder.HighDateTime,
    h1, h2]
/-- C10: for every `Filetime` and every buffer of at least 8 bytes, `Encode` returns, the
decoder view of the written buffer decodes to the same `Filetime`, bytes `[0,4)` hold
`LowDateTime` and bytes `[4,8)` hold `HighDateTime`, least significant byte first, and
the bytes from index 8 on are unchanged. -/
theorem Filetime_Encode_Decode (ft : Filetime) (hft : ft.WF) (p : Bytes)
    (hp : 8 ≤ p.length) :
    ∃ q, ft.Encode p = some q ∧ FiletimeDecoder.Decode q = some ft ∧
      q.length = p.length ∧
      slice q 0 4 = some [byte ft.LowDateTime, byte (ft.LowDateTime / 2 ^ 8),
        byte (ft.LowDateTime / 2 ^ 16), byte (ft.LowDateTime / 2 ^ 24)] ∧
      slice q 4 8 = some [byte ft.HighDateTime, byte (ft.HighDateTime / 2 ^ 8),
        byte (ft.HighDateTime / 2 ^ 16), byte (ft.HighDateTime / 2 ^ 24)] ∧
      u32At q 0 = ft.LowDateTime ∧ u32At q 4 = ft.HighDateTime ∧
      q.drop 8 = p.drop 8 := by
  obtain ⟨hlo, hhi⟩ := hft
  refine ⟨_, Filetime_Encode_eq ft p hp, ?_⟩
  have hlen : ([byte ft.LowDateTime, byte (ft.LowDateTime >>> 8),
      byte (ft.LowDateTime >>> 16), byte (ft.LowDateTime >>> 24), byte ft.HighDateTime,
      byte (ft.HighDateTime >>> 8), byte (ft.HighDateTime >>> 16),
      byte (ft.HighDateTime >>> 24)] ++ p.drop 8).length = p.length := by
    simp only [List.length_append, List.length_cons, List.length_nil, List.length_drop]
    omega
  have e0 : u32At ([byte ft.LowDateTime, byte (ft.LowDateTime >>> 8),
      byte (ft.LowDateTime >>> 16), byte (ft.LowDateTime >>> 24), byte ft.HighDateTime,
      byte (ft.HighDateTime >>> 8), byte (ft.HighDateTime >>> 16),
      byte (ft.HighDateTime >>> 24)] ++ p.drop 8) 0 = ft.LowDateTime :=
    u32At_leBytes ft.LowDateTime hlo _
  have e4 : u32At ([byte ft.LowDateTime, byte (ft.LowDateTime >>> 8),
      byte (ft.LowDateTime >>> 16), byte (ft.LowDateTime >>> 24), byte ft.HighDateTime,
      byte (ft.HighDateTime >>> 8), byte (ft.HighDateTime >>> 16),
      byte (ft.HighDateTime >>> 24)] ++ p.drop 8) 4 = ft.HighDateTime := by
    have := u32At_leBytes ft.HighDateTime hhi (p.drop 8)
    simpa [u32At] using this
  refine ⟨?_, hlen, ?_, ?_, e0, e4, ?_⟩
  · rw [FiletimeDecoder_Decode_eq _ (by omega), e0, e4]
  · simp [slice, Nat.shiftRight_eq_div_pow]
  · simp [slice, Nat.shiftRight_eq_div_pow]
  · simp

/-- A witness of C10: the date `0x01d00000_00003039` written into nine bytes. -/
theorem Filetime_Encode_Decode_witness :
    ∃ q, (Filetime.mk 12345 30408704).Encode (List.replicate 9 7) = some q ∧
      FiletimeDecoder.Decode q = some (Filetime.mk 12345 30408704) ∧
      q.length = (List.replicate 9 (7 : Byte)).length ∧
      slice q 0 4 = some [byte 12345, byte (12345 / 2 ^ 8),
        byte (12345 / 2 ^ 16), byte (12345 / 2 ^ 24)] ∧
      slice q 4 8 = some [byte 30408704, byte (30408704 / 2 ^ 8),
        byte (30408704 / 2 ^ 16), byte (30408704 / 2 ^ 24)] ∧
      u32At q 0 = 12345 ∧ u32At q 4 = 30408704 ∧
      q.drop 8 = (List.replicate 9 (7 : Byte)).drop 8 :=
  Filetime_Encode_Decode (Filetime.mk 12345 30408704) (by decide) (List.replicate 9 7)
    (by decide)

/-- C8 fails as stated: the nanosecond count of the zero `Filetime` is not
`-11644473600000000000`, which lies below the least `int64`. -/
theorem Filetime_Nanoseconds_zero_ne :
    Filetime.Nanoseconds ⟨0, 0⟩ ≠ -11644473600000000000 := by decide

/-- C8, amended: the nanosecond count of the zero `Filetime` is `6802270473709551616`,
the value `-11644473600000000000` wrapped into the range of `int64`. -/
theorem Filetime_Nanoseconds_zero :
    Filetime.Nanoseconds ⟨0, 0⟩ = 6802270473709551616 ∧
      (6802270473709551616 : Int) = int64 (-11644473600000000000) ∧
      int64 (-11644473600000000000) = -11644473600000000000 + 2 ^ 64 := by decide

/-- C9 fails as stated: the zero `Filetime` does not survive the round trip through
nanoseconds. -/
theorem NsecToFiletime_Nanoseconds_zero :
    (Filetime.mk 0 0).WF ∧
      NsecToFiletime (Filetime.Nanoseconds ⟨0, 0⟩) = ⟨4123168604, 42949672⟩ ∧
      NsecToFiletime (Filetime.Nanoseconds ⟨0, 0⟩) ≠ ⟨0, 0⟩ := by decide

theorem int64_of_range (x : Int) (h1 : -2 ^ 63 ≤ x) (h2 : x < 2 ^ 63) : int64 x = x := by
  unfold int64
  omega

/-- C9, amended: for every `Filetime` whose exact nanosecond count
`((HighDateTime * 2^32 + LowDateTime) - 116444736000000000) * 100` lies in the range of
`int64`, `NsecToFiletime(ft.Nanoseconds())` has the same `LowDateTime` and the same
`HighDateTime` as `ft`. -/
theorem NsecToFiletime_Nanoseconds (ft : Filetime) (hft : ft.WF)
    (hlo : -2 ^ 63 ≤ (((ft.HighDateTime : Int) * 2 ^ 32 + ft.LowDateTime)
      - 116444736000000000) * 100)
    (hhi : (((ft.HighDateTime : Int) * 2 ^ 32 + ft.LowDateTime)
      - 116444736000000000) * 100 ≤ 2 ^ 63 - 1) :
    NsecToFiletime ft.Nanoseconds = ft := by
  obtain ⟨lo, hi⟩ := ft
  obtain ⟨h1, h2⟩ := hft
  simp only at h1 h2 hlo hhi
  have e1 : int64 ((hi : Int) * 2 ^ 32) = (hi : Int) * 2 ^ 32 :=
    int64_of_range _ (by omega) (by omega)
  have e2 : int64 ((hi : Int) * 2 ^ 32 + (lo : Int)) = (hi : Int) * 2 ^ 32 + (lo : Int) :=
    int64_of_range _ (by omega) (by omega)
  have e3 : int64 ((hi : Int) * 2 ^ 32 + (lo : Int) - 116444736000000000)
      = (hi : Int) * 2 ^ 32 + (lo : Int) - 116444736000000000 :=
    int64_of_range _ (by omega) (by omega)
  have e4 : int64 (((hi : Int) * 2 ^ 32 + (lo : Int) - 116444736000000000) * 100)
      = ((hi : Int) * 2 ^ 32 + (lo : Int) - 116444736000000000) * 100 :=
    int64_of_range _ (by omega) (by omega)
  have e5 : Int.tdiv (((hi : Int) * 2 ^ 32 + (lo : Int) - 116444736000000000) * 100) 100
      = (hi : Int) * 2 ^ 32 + (lo : Int) - 116444736000000000 :=
    Int.mul_tdiv_cancel _ (by decide)
  have e6 : int64 ((hi : Int) * 2 ^ 32 + (lo : Int) - 116444736000000000
      + 116444736000000000) = (hi : Int) * 2 ^ 32 + (lo : Int) :=
    by
      have e : (hi : Int) * 2 ^ 32 + (lo : Int) - 116444736000000000 + 116444736000000000
          = (hi : Int) * 2 ^ 32 + (lo : Int) := by omega
      rw [e]
      exact e2
  simp only [Filetime.Nanoseconds, NsecToFiletime, e1, e2, e3, e4, e5, e6, uint32,
    Int.shiftRight_eq_div_pow, Filetime.mk.injEq]
  constructor
  · omega
  · norm_num
    omega

/-- A witness of C9, amended: the date `0x01d00000_00003039`. -/
theorem NsecToFiletime_Nanoseconds_witness :
    NsecToFiletime (Filetime.mk 12345 30408704).Nanoseconds = Filetime.mk 12345 30408704 :=
  NsecToFiletime_Nanoseconds (Filetime.mk 12345 30408704) (by decide) (by decide)
    (by decide)

/-! ## SidDecoder -/

theorem byte_succ_val (i count : Byte) (h : i < count) : (i + 1).val = i.val + 1 := by
  have h1 : i.val < count.val := h
  rw [Fin.val_add]
  simp
  omega

theorem getD_set_eq (as : List Nat) (i j v : Nat) (hi : i < as.length) :
    (as.set i v).getD j 0 = if j = i then v else as.getD j 0 := by
  simp only [List.getD_eq_getElem?_getD, List.getElem?_set]
  by_cases h : i = j
  · subst h
    simp [hi]
  · have h' : ¬ j = i := fun e => h e.symm
    simp [h, h']

theorem SidDecoder_SubAuthorityLoop_spec (c : Bytes) (count : Byte)
    (hc : 8 + 4 * count.val ≤ c.length) :
    ∀ (n : Nat) (i : Byte) (off : Nat) (as : List Nat),
      count.val - i.val = n → i.val ≤ count.val → off = 8 + 4 * i.val →
      as.length = count.val →
      ∃ r, SidDecoder.SubAuthorityLoop c count i off as = some r ∧ r.length = count.val ∧
        (∀ j, j < i.val → r.getD j 0 = as.getD j 0) ∧
        (∀ j, i.val ≤ j → j < count.val → r.getD j 0 = u32At c (8 + 4 * j)) := by
  intro n
  induction n with
  | zero =>
    intro i off as hn hi hoff hlen
    have hic : ¬ i < count := by
      intro h
      have : i.val < count.val := h
      omega
    rw [SidDecoder.SubAuthorityLoop, dif_neg hic]
    exact ⟨as, rfl, hlen, fun _ _ => rfl, fun j h1 h2 => by omega⟩
  | succ n ih =>
    intro i off as hn hi hoff hlen
    have hic : i < count := by
      show i.val < count.val
      omega
    have hlt : i.val < count.val := hic
    have hs := byte_succ_val i count hic
    have hread := slice_Uint32 c off
    rw [if_pos (by omega)] at hread
    have hslice : slice c off (off + 4) = some ((c.take (off + 4)).drop off) := by
      simp only [slice]
      rw [if_pos ⟨by omega, by omega⟩]
    rw [hslice, Option.some_bind] at hread
    obtain ⟨r, hr, hrl, hrlow, hrhigh⟩ :=
      ih (i + 1) (off + 4) (as.set i.val (u32At c off)) (by omega) (by omega) (by omega)
        (by simp [hlen])
    refine ⟨r, ?_, hrl, ?_, ?_⟩
    · rw [SidDecoder.SubAuthorityLoop, dif_pos hic]
      simp only [hslice, hread, assign]
      rw [if_pos (by omega)]
      exact hr
    · intro j hj
      rw [hrlow j (by omega), getD_set_eq _ _ _ _ (by omega), if_neg (by omega)]
    · intro j hj1 hj2
      by_cases hji : j = i.val
      · rw [hrlow j (by omega), getD_set_eq _ _ _ _ (by omega), if_pos hji, hoff, hji]
      · exact hrhigh j (by omega) hj2
theorem range_six : List.range 6 = [0, 1, 2, 3, 4, 5] := by decide

theorem SidDecoder_IdentifierAuthority_eq (c : Bytes) (h : 8 ≤ c.length) :
    SidDecoder.IdentifierAuthority c = some
      ((c.getD 7 0).val + (c.getD 6 0).val * 2 ^ 8 + (c.getD 5 0).val * 2 ^ 16
        + (c.getD 4 0).val * 2 ^ 24 + (c.getD 3 0).val * 2 ^ 32
        + (c.getD 2 0).val * 2 ^ 40) := by
  have h2 := index_of_lt c 2 0 (by omega)
  have h3 := index_of_lt c 3 0 (by omega)
  have h4 := index_of_lt c 4 0 (by omega)
  have h5 := index_of_lt c 5 0 (by omega)
  have h6 := index_of_lt c 6 0 (by omega)
  have h7 := index_of_lt c 7 0 (by omega)
  have b2 := (c.getD 2 0).isLt
  have b3 := (c.getD 3 0).isLt
  have b4 := (c.getD 4 0).isLt
  have b5 := (c.getD 5 0).isLt
  have b6 := (c.getD 6 0).isLt
  have b7 := (c.getD 7 0).isLt
  simp only [SidDecoder.IdentifierAuthority, range_six, List.foldlM, Option.bind_eq_bind,
    Option.pure_def, h2, h3, h4, h5, h6, h7, Option.some_bind, Nat.shiftLeft_eq,
    Option.some.injEq]
  omega

theorem SidDecoder_SubAuthority_spec (c : Bytes) (h : SidDecoder.IsInvalid c = some false) :
    ∃ r, SidDecoder.SubAuthority c = some r ∧ r.length = (c.getD 1 0).val ∧
      ∀ j, j < (c.getD 1 0).val → r.getD j 0 = u32At c (8 + 4 * j) := by
  rw [SidDecoder_IsInvalid_eq] at h
  have h' : ¬ (c.length < 8 ∨ c.length < 8 + 4 * (c.getD 1 0).val) := by
    simpa using h
  have h1 := index_of_lt c 1 0 (by omega)
  obtain ⟨r, hr, hrl, _, hrh⟩ :=
    SidDecoder_SubAuthorityLoop_spec c (c.getD 1 0) (by omega) _ 0 8
      (List.replicate (c.getD 1 0).val 0) rfl (by simp) (by simp) (by simp)
  refine ⟨r, ?_, hrl, fun j hj => hrh j (by simp) hj⟩
  simp only [SidDecoder.SubAuthority, SidDecoder.SubAuthorityCount, h1, Option.bind_eq_bind,
    Option.some_bind]
  exact hr
/-- C4: on every buffer that `SidDecoder.IsInvalid` accepts, `Revision`,
`SubAuthorityCount`, `IdentifierAuthority`, `SubAuthority` and `Decode` all return
without an out-of-range access (the functions are total, so the `uint8` loop ends, also
for the count 255), and `SubAuthority` returns exactly `c[1]` values, the `i`-th being
the little-endian `uint32` at `c[8+4i : 12+4i]`. -/
theorem SidDecoder_accessors_of_valid (c : Bytes)
    (h : SidDecoder.IsInvalid c = some false) :
    SidDecoder.Revision c = some (c.getD 0 0) ∧
    SidDecoder.SubAuthorityCount c = some (c.getD 1 0) ∧
    ∃ u as, SidDecoder.IdentifierAuthority c = some u ∧
      SidDecoder.SubAuthority c = some as ∧
      as.length = (c.getD 1 0).val ∧
      (∀ i, i < (c.getD 1 0).val →
        index as i = (slice c (8 + 4 * i) (12 + 4 * i)).bind le.Uint32 ∧
        index as i = some (u32At c (8 + 4 * i))) ∧
      SidDecoder.Decode c = some ⟨c.getD 0 0, u, as⟩ := by
  have hv := h
  rw [SidDecoder_IsInvalid_eq] at hv
  have h' : ¬ (c.length < 8 ∨ c.length < 8 + 4 * (c.getD 1 0).val) := by
    simpa using hv
  have h0 := index_of_lt c 0 0 (by omega)
  have h1 := index_of_lt c 1 0 (by omega)
  have hia := SidDecoder_IdentifierAuthority_eq c (by omega)
  obtain ⟨as, has, hlen, hget⟩ := SidDecoder_SubAuthority_spec c h
  refine ⟨h0, h1, _, as, hia, has, hlen, ?_, ?_⟩
  · intro i hi
    have e : 12 + 4 * i = 8 + 4 * i + 4 := by omega
    have hidx : index as i = some (u32At c (8 + 4 * i)) := by
      rw [index_of_lt as i 0 (by omega), hget i hi]
    rw [e, slice_Uint32, if_pos (by omega)]
    exact ⟨hidx, hidx⟩
  · simp only [SidDecoder.Decode, SidDecoder.Revision, h0, hia, has, Option.bind_eq_bind,
      Option.some_bind, Option.pure_def]

/-- A witness of C4: a SID view with the count byte 255 and its 1020 bytes of
sub-authorities. -/
theorem SidDecoder_accessors_of_valid_witness :
    SidDecoder.Revision ([1, 255, 0, 0, 0, 0, 0, 5] ++ List.replicate 1020 1)
      = some (([1, 255, 0, 0, 0, 0, 0, 5] ++ List.replicate 1020 (1 : Byte)).getD 0 0) ∧
    SidDecoder.SubAuthorityCount ([1, 255, 0, 0, 0, 0, 0, 5] ++ List.replicate 1020 1)
      = some (([1, 255, 0, 0, 0, 0, 0, 5] ++ List.replicate 1020 (1 : Byte)).getD 1 0) ∧
    ∃ u as,
      SidDecoder.IdentifierAuthority ([1, 255, 0, 0, 0, 0, 0, 5] ++ List.replicate 1020 1)
        = some u ∧
      SidDecoder.SubAuthority ([1, 255, 0, 0, 0, 0, 0, 5] ++ List.replicate 1020 1)
        = some as ∧
      as.length = (([1, 255, 0, 0, 0, 0, 0, 5] ++ List.replicate 1020 (1 : Byte)).getD 1 0).val ∧
      (∀ i, i < (([1, 255, 0, 0, 0, 0, 0, 5] ++ List.replicate 1020 (1 : Byte)).getD 1 0).val →
        index as i = (slice ([1, 255, 0, 0, 0, 0, 0, 5] ++ List.replicate 1020 (1 : Byte))
          (8 + 4 * i) (12 + 4 * i)).bind le.Uint32 ∧
        index as i = some (u32At ([1, 255, 0, 0, 0, 0, 0, 5] ++ List.replicate 1020 (1 : Byte))
          (8 + 4 * i))) ∧
      SidDecoder.Decode ([1, 255, 0, 0, 0, 0, 0, 5] ++ List.replicate 1020 1)
        = some ⟨([1, 255, 0, 0, 0, 0, 0, 5] ++ List.replicate 1020 (1 : Byte)).getD 0 0, u, as⟩ :=
  SidDecoder_accessors_of_valid ([1, 255, 0, 0, 0, 0, 0, 5] ++ List.replicate 1020 1)
    (by
      rw [SidDecoder_IsInvalid_eq]
      simp only [List.length_append, List.length_cons, List.length_nil,
        List.length_replicate, List.cons_append, List.getD_cons_succ, List.getD_cons_zero]
      decide)

/-! ## Sid.Encode -/

theorem length_leBytes32s (us : List Nat) : (leBytes32s us).length = 4 * us.length := by
  induction us with
  | nil => rfl
  | cons u us ih => simp [leBytes32s, leBytes32, ih]; omega

theorem through_PutUint32_append (A B C : Bytes) (v : Nat) (hB : B.length = 4) :
    through (A ++ B ++ C) A.length (A.length + 4) (fun b => le.PutUint32 b v)
      = some (A ++ leBytes32 v ++ C) := by
  rw [through_PutUint32, if_pos (by simp [hB])]
  have e1 : (A ++ B ++ C).take A.length = A := by
    rw [List.append_assoc, List.take_left]
  have e2 : (A ++ B ++ C).drop (A.length + 4) = C := by
    have : A.length + 4 = (A ++ B).length := by simp [hB]
    rw [this, List.drop_left]
  rw [e1, e2]
  rfl

theorem Sid_EncodeSubAuthority_eq (us : List Nat) :
    ∀ (A B C : Bytes), B.length = 4 * us.length →
      Sid.EncodeSubAuthority us A.length (A ++ B ++ C) = some (A ++ leBytes32s us ++ C) := by
  induction us with
  | nil =>
    intro A B C hB
    have : B = [] := List.eq_nil_of_length_eq_zero (by simpa using hB)
    subst this
    simp [Sid.EncodeSubAuthority, leBytes32s]
  | cons u us ih =>
    intro A B C hB
    have hsplit : B = B.take 4 ++ B.drop 4 := (List.take_append_drop 4 B).symm
    have h4 : (B.take 4).length = 4 := by
      simp only [List.length_take, List.length_cons] at hB ⊢
      omega
    have hrest : (B.drop 4).length = 4 * us.length := by
      simp only [List.length_drop, List.length_cons] at hB ⊢
      omega
    have e : A ++ B ++ C = A ++ B.take 4 ++ (B.drop 4 ++ C) := by
      rw [List.append_assoc A, List.append_assoc A, ← List.append_assoc (B.take 4),
        List.take_append_drop]
    have hstep := through_PutUint32_append A (B.take 4) (B.drop 4 ++ C) u h4
    have hnext := ih (A ++ leBytes32 u) (B.drop 4) C hrest
    have hl : (A ++ leBytes32 u).length = A.length + 4 := by simp [leBytes32]
    rw [hl] at hnext
    simp only [Sid.EncodeSubAuthority, Option.bind_eq_bind]
    rw [e, hstep, Option.some_bind]
    have e' : A ++ leBytes32 u ++ (B.drop 4 ++ C) = A ++ leBytes32 u ++ B.drop 4 ++ C := by
      simp [List.append_assoc]
    rw [e', hnext]
    simp [leBytes32s, List.append_assoc]

theorem Sid_Encode_header (sid : Sid) (p : Bytes) (h : 8 ≤ p.length) :
    sid.Encode p = Sid.EncodeSubAuthority sid.SubAuthority 8
      (sid.Revision :: byte sid.SubAuthority.length :: beBytes48 sid.IdentifierAuthority
        ++ p.drop 8) := by
  match p, h with
  | a0 :: a1 :: a2 :: a3 :: a4 :: a5 :: a6 :: a7 :: t, _ =>
    simp [Sid.Encode, assign, range_six, List.foldlM, beBytes48]

theorem Sid_Encode_eq (sid : Sid) (p : Bytes) (h : sid.Size ≤ p.length) :
    sid.Encode p = some
      (sid.Revision :: byte sid.SubAuthority.length :: beBytes48 sid.IdentifierAuthority
        ++ leBytes32s sid.SubAuthority ++ p.drop sid.Size) := by
  unfold Sid.Size at h
  rw [Sid_Encode_header sid p (by omega)]
  have hB : ((p.drop 8).take (4 * sid.SubAuthority.length)).length
      = 4 * sid.SubAuthority.length := by
    simp only [List.length_take, List.length_drop]
    omega
  have hsplit : p.drop 8 = (p.drop 8).take (4 * sid.SubAuthority.length) ++ p.drop sid.Size := by
    have := (List.take_append_drop (4 * sid.SubAuthority.length) (p.drop 8)).symm
    rw [List.drop_drop] at this
    have e2 : 8 + 4 * sid.SubAuthority.length = sid.Size := by unfold Sid.Size; omega
    rw [e2] at this
    exact this
  have := Sid_EncodeSubAuthority_eq sid.SubAuthority
    (sid.Revision :: byte sid.SubAuthority.length :: beBytes48 sid.IdentifierAuthority)
    ((p.drop 8).take (4 * sid.SubAuthority.length)) (p.drop sid.Size) hB
  have hl : (sid.Revision :: byte sid.SubAuthority.length
      :: beBytes48 sid.IdentifierAuthority).length = 8 := by simp [beBytes48]
  rw [hl] at this
  rw [← this]
  congr 1
  conv_lhs => rw [hsplit]
  simp [List.append_assoc]
theorem u32At_append_left (A c : Bytes) (k : Nat) :
    u32At (A ++ c) (A.length + k) = u32At c k := by
  have e : ∀ i, (A ++ c).getD (A.length + i) 0 = c.getD i 0 := by
    intro i
    simp only [List.getD_eq_getElem?_getD]
    rw [List.getElem?_append_right (by omega)]
    simp
  simp only [u32At, Nat.add_assoc, e]

theorem u32At_leBytes32s (us : List Nat) (hus : ∀ a ∈ us, a < 2 ^ 32) :
    ∀ (j : Nat) (C : Bytes), j < us.length →
      u32At (leBytes32s us ++ C) (4 * j) = us.getD j 0 := by
  induction us with
  | nil => intro j C hj; simp at hj
  | cons u us ih =>
    intro j C hj
    cases j with
    | zero =>
      have := u32At_leBytes u (hus u (by simp)) (leBytes32s us ++ C)
      simpa [leBytes32s, leBytes32] using this
    | succ j =>
      have h1 := u32At_append_left (leBytes32 u) (leBytes32s us ++ C) (4 * j)
      have hl : (leBytes32 u).length = 4 := rfl
      rw [hl] at h1
      have e : 4 * (j + 1) = 4 + 4 * j := by omega
      rw [e]
      simp only [leBytes32s, List.append_assoc]
      rw [h1, ih (fun a ha => hus a (by simp [ha])) j C (by simpa using hj)]
      simp

theorem Sid_Decode_encoded (r : Byte) (ia : Nat) (us : List Nat) (C : Bytes)
    (hus : ∀ a ∈ us, a < 2 ^ 32) (hn : us.length ≤ 255) :
    SidDecoder.Decode (r :: byte us.length :: beBytes48 ia ++ leBytes32s us ++ C)
      = some ⟨r, ia % 2 ^ 48, us⟩ := by
  have hlen : (r :: byte us.length :: beBytes48 ia ++ leBytes32s us ++ C).length
      = 8 + 4 * us.length + C.length := by
    simp [beBytes48, length_leBytes32s]
    omega
  have hcount : (r :: byte us.length :: beBytes48 ia ++ leBytes32s us ++ C).getD 1 0
      = byte us.length := by simp
  have hcv : (byte us.length).val = us.length := by
    rw [byte_val]
    omega
  have hvalid : SidDecoder.IsInvalid
      (r :: byte us.length :: beBytes48 ia ++ leBytes32s us ++ C) = some false := by
    rw [SidDecoder_IsInvalid_eq, hcount, hcv, hlen]
    simp
    omega
  obtain ⟨as, has, hasl, hget⟩ := SidDecoder_SubAuthority_spec _ hvalid
  rw [hcount, hcv] at hasl hget
  have has_eq : as = us := by
    apply List.ext_get?
    intro j
    by_cases hj : j < us.length
    · have h1 : as.get? j = some (as.getD j 0) := index_of_lt as j 0 (by omega)
      have h2 : us.get? j = some (us.getD j 0) := index_of_lt us j 0 hj
      rw [h1, h2, hget j hj]
      have h3 := u32At_append_left (r :: byte us.length :: beBytes48 ia)
        (leBytes32s us ++ C) (4 * j)
      have hl : (r :: byte us.length :: beBytes48 ia).length = 8 := rfl
      rw [hl] at h3
      have e : r :: byte us.length :: beBytes48 ia ++ leBytes32s us ++ C
          = (r :: byte us.length :: beBytes48 ia) ++ (leBytes32s us ++ C) := by
        simp [List.append_assoc]
      rw [e, h3, u32At_leBytes32s us hus j C hj]
    · have h1 : as.get? j = none := index_of_le as j (by omega)
      have h2 : us.get? j = none := index_of_le us j (by omega)
      rw [h1, h2]
  have hia := SidDecoder_IdentifierAuthority_eq
    (r :: byte us.length :: beBytes48 ia ++ leBytes32s us ++ C) (by omega)
  have h0 := index_of_lt (r :: byte us.length :: beBytes48 ia ++ leBytes32s us ++ C) 0 0
    (by omega)
  simp only [SidDecoder.Decode, SidDecoder.Revision, h0, hia, has, has_eq,
    Option.bind_eq_bind, Option.some_bind, Option.pure_def, Option.some.injEq, Sid.mk.injEq]
  refine ⟨by simp, ?_, trivial⟩
  simp only [beBytes48, List.cons_append, List.getD_cons_succ, List.getD_cons_zero, byte_val,
    Nat.shiftRight_eq_div_pow]
  omega
/-- C1 fails as stated: a `Sid` without sub-authorities whose `IdentifierAuthority` is
`2^48` is encoded into eight bytes and decoded with the authority 0. -/
theorem Sid_Encode_Decode_authority_lost :
    (Sid.mk 1 (2 ^ 48) []).WF ∧ (Sid.mk 1 (2 ^ 48) []).SubAuthority.length ≤ 255 ∧
    (Sid.mk 1 (2 ^ 48) []).Size ≤ (List.replicate 8 (0 : Byte)).length ∧
    ((Sid.mk 1 (2 ^ 48) []).Encode (List.replicate 8 0)).bind SidDecoder.Decode
      = some (Sid.mk 1 0 []) ∧
    ((Sid.mk 1 (2 ^ 48) []).Encode (List.replicate 8 0)).bind SidDecoder.Decode
      ≠ some (Sid.mk 1 (2 ^ 48) []) := by
  have h : ((Sid.mk 1 (2 ^ 48) []).Encode (List.replicate 8 0)).bind SidDecoder.Decode
      = some (Sid.mk 1 0 []) := by
    rw [Sid_Encode_eq _ _ (by decide), Option.some_bind,
      Sid_Decode_encoded _ _ _ _ (by decide) (by decide)]
    decide
  refine ⟨by decide, by decide, by decide, h, ?_⟩
  rw [h]
  decide

/-- C1, amended: for every `Sid` with at most 255 sub-authorities and every buffer of at
least `Size()` bytes, `Encode` followed by `SidDecoder.Decode` yields the same `Revision`,
the same sub-authorities and the `IdentifierAuthority` reduced modulo `2^48`; the decoded
`Sid` is therefore equal to the original whenever `IdentifierAuthority < 2^48`. -/
theorem Sid_Encode_Decode (s : Sid) (hs : s.WF) (hn : s.SubAuthority.length ≤ 255)
    (p : Bytes) (hp : s.Size ≤ p.length) :
    ∃ q, s.Encode p = some q ∧
      SidDecoder.Decode q
        = some ⟨s.Revision, s.IdentifierAuthority % 2 ^ 48, s.SubAuthority⟩ ∧
      (s.IdentifierAuthority < 2 ^ 48 → SidDecoder.Decode q = some s) := by
  refine ⟨_, Sid_Encode_eq s p hp, ?_, ?_⟩
  · exact Sid_Decode_encoded _ _ _ _ hs.2 hn
  · intro hia
    rw [Sid_Decode_encoded _ _ _ _ hs.2 hn, Nat.mod_eq_of_lt hia]

/-- A witness of C1, amended: the SID `S-1-5-32-544` written into 17 bytes. -/
theorem Sid_Encode_Decode_witness :
    ∃ q, (Sid.mk 1 5 [32, 544]).Encode (List.replicate 17 7) = some q ∧
      SidDecoder.Decode q = some ⟨1, 5 % 2 ^ 48, [32, 544]⟩ ∧
      ((5 : Nat) < 2 ^ 48 → SidDecoder.Decode q = some (Sid.mk 1 5 [32, 544])) :=
  Sid_Encode_Decode (Sid.mk 1 5 [32, 544]) (by decide) (by decide) (List.replicate 17 7)
    (by decide)

/-! ## AceDecoder -/

theorem SidDecoder_SubAuthorityLoop_none (c : Bytes) (count : Byte)
    (hc : c.length < 8 + 4 * count.val) :
    ∀ (n : Nat) (i : Byte) (off : Nat) (as : List Nat),
      count.val - i.val = n → i.val < count.val → off = 8 + 4 * i.val →
      as.length = count.val →
      SidDecoder.SubAuthorityLoop c count i off as = none := by
  intro n
  induction n with
  | zero => intro i off as hn hi; omega
  | succ n ih =>
    intro i off as hn hi hoff hlen
    have hic : i < count := hi
    have hs := byte_succ_val i count hic
    rw [SidDecoder.SubAuthorityLoop, dif_pos hic]
    by_cases hb : off + 4 ≤ c.length
    · have hread := slice_Uint32 c off
      rw [if_pos hb] at hread
      have hslice : slice c off (off + 4) = some ((c.take (off + 4)).drop off) := by
        simp only [slice]
        rw [if_pos ⟨by omega, by omega⟩]
      rw [hslice, Option.some_bind] at hread
      simp only [hslice, hread, assign]
      rw [if_pos (by omega)]
      exact ih (i + 1) (off + 4) _ (by omega) (by omega) (by omega) (by simp [hlen])
    · have hslice : slice c off (off + 4) = none := by
        simp only [slice]
        rw [if_neg (fun h => hb h.2)]
      simp only [hslice]

theorem SidDecoder_Decode_of_valid (c : Bytes) (h : SidDecoder.IsInvalid c = some false) :
    ∃ s, SidDecoder.Decode c = some s := by
  have hv := h
  rw [SidDecoder_IsInvalid_eq] at hv
  have h' : ¬ (c.length < 8 ∨ c.length < 8 + 4 * (c.getD 1 0).val) := by
    simpa using hv
  have h0 := index_of_lt c 0 0 (by omega)
  have hia := SidDecoder_IdentifierAuthority_eq c (by omega)
  obtain ⟨as, has, _, _⟩ := SidDecoder_SubAuthority_spec c h
  simp only [SidDecoder.Decode, SidDecoder.Revision, h0, hia, has, Option.bind_eq_bind,
    Option.some_bind, Option.pure_def]
  exact ⟨_, rfl⟩

theorem SidDecoder_Decode_isSome (c : Bytes) :
    (SidDecoder.Decode c).isSome ↔ SidDecoder.IsInvalid c = some false := by
  constructor
  · intro h
    rw [SidDecoder_IsInvalid_eq]
    by_cases h8 : c.length < 8
    · have h7 := index_of_le c 7 (by omega)
      have : SidDecoder.IdentifierAuthority c = none := by
        simp [SidDecoder.IdentifierAuthority, range_six, List.foldlM, h7]
      simp [SidDecoder.Decode, this] at h
    · by_cases hn : c.length < 8 + 4 * (c.getD 1 0).val
      · have h1 := index_of_lt c 1 0 (by omega)
        have hloop := SidDecoder_SubAuthorityLoop_none c (c.getD 1 0) hn _ 0 8
          (List.replicate (c.getD 1 0).val 0) rfl
          (by
            show (0 : Nat) < (c.getD 1 0).val
            omega)
          (by simp) (by simp)
        have : SidDecoder.SubAuthority c = none := by
          simp only [SidDecoder.SubAuthority, SidDecoder.SubAuthorityCount, h1,
            Option.bind_eq_bind, Option.some_bind]
          exact hloop
        simp [SidDecoder.Decode, this] at h
      · have : ¬ (c.length < 8 ∨ c.length < 8 + 4 * (c.getD 1 0).val) := by omega
        rw [decide_eq_false this]
  · intro h
    obtain ⟨s, hd⟩ := SidDecoder_Decode_of_valid c h
    simp [hd]
theorem AceDecoder_AccessMask_eq (c : Bytes) :
    AceDecoder.AccessMask c = if 8 ≤ c.length then some (u32At c 4) else none := by
  have h := slice_Uint32 c 4
  simpa [AceDecoder.AccessMask] using h

theorem AceDecoder_Sid_isSome (c : Bytes) :
    (AceDecoder.Sid c).isSome
      ↔ 8 ≤ c.length ∧ SidDecoder.IsInvalid (c.drop 8) = some false := by
  by_cases h8 : 8 ≤ c.length
  · have hs : sliceFrom c 8 = some (c.drop 8) := by simp [sliceFrom, h8]
    rw [← SidDecoder_Decode_isSome]
    simp only [AceDecoder.Sid, hs, Option.bind_eq_bind, Option.some_bind, h8, true_and]
    cases SidDecoder.Decode (c.drop 8) <;> simp
  · have hs : sliceFrom c 8 = none := by simp [sliceFrom, h8]
    simp [AceDecoder.Sid, hs, h8]

/-- C5 fails as stated: the four-byte view `00 00 00 00` passes `AceDecoder.IsInvalid`,
yet `AccessMask` and `Sid` leave the buffer. -/
theorem AceDecoder_header_only :
    AceDecoder.IsInvalid [0, 0, 0, 0] = some false ∧
    AceDecoder.AccessMask [0, 0, 0, 0] = none ∧
    AceDecoder.Sid [0, 0, 0, 0] = none := by decide

/-- C5, amended: on every buffer that `AceDecoder.IsInvalid` accepts, `AceType`, `Flags`
and `Size` read only indices inside the buffer; `AccessMask` does so exactly when the
buffer has at least 8 bytes, and `Sid` exactly when it has at least 8 bytes and
`SidDecoder.IsInvalid` accepts the bytes from offset 8 on. -/
theorem AceDecoder_accessors_of_valid (c : Bytes)
    (h : AceDecoder.IsInvalid c = some false) :
    AceDecoder.AceType c = some (c.getD 0 0) ∧
    AceDecoder.Flags c = some (c.getD 1 0) ∧
    AceDecoder.Size c = some (u16At c 2) ∧
    ((AceDecoder.AccessMask c).isSome ↔ 8 ≤ c.length) ∧
    (8 ≤ c.length → AceDecoder.AccessMask c = some (u32At c 4)) ∧
    ((AceDecoder.Sid c).isSome
      ↔ 8 ≤ c.length ∧ SidDecoder.IsInvalid (c.drop 8) = some false) := by
  rw [AceDecoder_IsInvalid_eq] at h
  have h' : ¬ (c.length < 4 ∨ c.length < 4 + u16At c 2) := by simpa using h
  have h4 : 4 ≤ c.length := by omega
  refine ⟨index_of_lt c 0 0 (by omega), index_of_lt c 1 0 (by omega), ?_, ?_, ?_,
    AceDecoder_Sid_isSome c⟩
  · rw [AceDecoder_Size_eq, if_pos h4]
  · rw [AceDecoder_AccessMask_eq]
    by_cases h8 : 8 ≤ c.length <;> simp [h8]
  · intro h8
    rw [AceDecoder_AccessMask_eq, if_pos h8]

/-- A witness of C5, amended: an access-allowed ACE for `S-1-5-32-544` with the
declared size 20, in a view of 24 bytes. -/
theorem AceDecoder_accessors_of_valid_witness :
    AceDecoder.AceType
      [0, 3, 20, 0, 255, 1, 31, 0, 1, 2, 0, 0, 0, 0, 0, 5, 32, 0, 0, 0, 32, 2, 0, 0]
      = some (([0, 3, 20, 0, 255, 1, 31, 0, 1, 2, 0, 0, 0, 0, 0, 5, 32, 0, 0, 0, 32, 2, 0, 0]
        : Bytes).getD 0 0) ∧
    AceDecoder.Flags
      [0, 3, 20, 0, 255, 1, 31, 0, 1, 2, 0, 0, 0, 0, 0, 5, 32, 0, 0, 0, 32, 2, 0, 0]
      = some (([0, 3, 20, 0, 255, 1, 31, 0, 1, 2, 0, 0, 0, 0, 0, 5, 32, 0, 0, 0, 32, 2, 0, 0]
        : Bytes).getD 1 0) ∧
    AceDecoder.Size
      [0, 3, 20, 0, 255, 1, 31, 0, 1, 2, 0, 0, 0, 0, 0, 5, 32, 0, 0, 0, 32, 2, 0, 0]
      = some (u16At
        [0, 3, 20, 0, 255, 1, 31, 0, 1, 2, 0, 0, 0, 0, 0, 5, 32, 0, 0, 0, 32, 2, 0, 0] 2) ∧
    ((AceDecoder.AccessMask
      [0, 3, 20, 0, 255, 1, 31, 0, 1, 2, 0, 0, 0, 0, 0, 5, 32, 0, 0, 0, 32, 2, 0, 0]).isSome
      ↔ 8 ≤ ([0, 3, 20, 0, 255, 1, 31, 0, 1, 2, 0, 0, 0, 0, 0, 5, 32, 0, 0, 0, 32, 2, 0, 0]
        : Bytes).length) ∧
    (8 ≤ ([0, 3, 20, 0, 255, 1, 31, 0, 1, 2, 0, 0, 0, 0, 0, 5, 32, 0, 0, 0, 32, 2, 0, 0]
        : Bytes).length →
      AceDecoder.AccessMask
        [0, 3, 20, 0, 255, 1, 31, 0, 1, 2, 0, 0, 0, 0, 0, 5, 32, 0, 0, 0, 32, 2, 0, 0]
        = some (u32At
          [0, 3, 20, 0, 255, 1, 31, 0, 1, 2, 0, 0, 0, 0, 0, 5, 32, 0, 0, 0, 32, 2, 0, 0] 4)) ∧
    ((AceDecoder.Sid
      [0, 3, 20, 0, 255, 1, 31, 0, 1, 2, 0, 0, 0, 0, 0, 5, 32, 0, 0, 0, 32, 2, 0, 0]).isSome
      ↔ 8 ≤ ([0, 3, 20, 0, 255, 1, 31, 0, 1, 2, 0, 0, 0, 0, 0, 5, 32, 0, 0, 0, 32, 2, 0, 0]
          : Bytes).length ∧
        SidDecoder.IsInvalid
          (([0, 3, 20, 0, 255, 1, 31, 0, 1, 2, 0, 0, 0, 0, 0, 5, 32, 0, 0, 0, 32, 2, 0, 0]
            : Bytes).drop 8) = some false) :=
  AceDecoder_accessors_of_valid
    [0, 3, 20, 0, 255, 1, 31, 0, 1, 2, 0, 0, 0, 0, 0, 5, 32, 0, 0, 0, 32, 2, 0, 0] (by decide)

/-! ## AclDecoder -/

theorem getD_drop (c : Bytes) (k i : Nat) : (c.drop k).getD i 0 = c.getD (k + i) 0 := by
  simp only [List.getD_eq_getElem?_getD, List.getElem?_drop]

theorem u16At_drop (c : Bytes) (k j : Nat) : u16At (c.drop k) j = u16At c (k + j) := by
  simp only [u16At, getD_drop, Nat.add_assoc]

theorem u32At_drop (c : Bytes) (k j : Nat) : u32At (c.drop k) j = u32At c (k + j) := by
  simp only [u32At, getD_drop, Nat.add_assoc]

theorem aceCursor_succ (c : Bytes) (k : Nat) :
    ∀ i, aceCursor c k (i + 1) = aceCursor c (k + u16At c (k + 2)) i := by
  intro i
  induction i with
  | zero => rfl
  | succ i ih =>
    show aceCursor c k (i + 1) + u16At c (aceCursor c k (i + 1) + 2) = _
    rw [ih]
    rfl

theorem AceDecoder_Size_drop (c : Bytes) (k : Nat) (hk : k ≤ c.length) :
    AceDecoder.Size (c.drop k)
      = if k + 4 ≤ c.length then some (u16At c (k + 2)) else none := by
  rw [AceDecoder_Size_eq, u16At_drop, List.length_drop]
  by_cases h : k + 4 ≤ c.length
  · rw [if_pos h, if_pos (by omega)]
  · rw [if_neg h, if_neg (by omega)]

theorem sliceFrom_drop (c : Bytes) (k s : Nat) (hk : k ≤ c.length) :
    sliceFrom (c.drop k) s = if k + s ≤ c.length then some (c.drop (k + s)) else none := by
  simp only [sliceFrom, List.length_drop, List.drop_drop]
  by_cases h : k + s ≤ c.length
  · rw [if_pos h, if_pos (by omega)]
  · rw [if_neg h, if_neg (by omega)]

theorem AclDecoder_DecodeLoop_ok (c : Bytes) :
    ∀ (n k : Nat) (acl : List Bytes), k ≤ c.length →
      (∀ i, i < n → aceCursor c k i + 4 ≤ c.length ∧
        aceCursor c k i + u16At c (aceCursor c k i + 2) ≤ c.length) →
      AclDecoder.DecodeLoop n (c.drop k) acl
        = some (acl ++ (List.range n).map (fun i => c.drop (aceCursor c k i))) := by
  intro n
  induction n with
  | zero => intro k acl _ _; simp [AclDecoder.DecodeLoop]
  | succ n ih =>
    intro k acl hk hw
    have h0 := hw 0 (by omega)
    simp only [aceCursor] at h0
    have hnext := ih (k + u16At c (k + 2)) (acl ++ [c.drop k]) h0.2
      (fun i hi => by
        have := hw (i + 1) (by omega)
        rw [aceCursor_succ] at this
        exact this)
    simp only [AclDecoder.DecodeLoop, Option.bind_eq_bind]
    rw [AceDecoder_Size_drop c k hk, if_pos h0.1, Option.some_bind,
      sliceFrom_drop c k _ hk, if_pos h0.2, Option.some_bind, hnext]
    rw [List.range_succ_eq_map, List.map_cons, List.map_map]
    simp only [List.append_assoc, List.singleton_append, Option.some.injEq,
      List.append_cancel_left_eq, List.cons.injEq]
    refine ⟨rfl, ?_⟩
    apply List.map_congr_left
    intro i _
    simp only [Function.comp, Nat.succ_eq_add_one]
    rw [aceCursor_succ]

theorem AclDecoder_DecodeLoop_isSome (c : Bytes) :
    ∀ (n k : Nat) (acl : List Bytes), k ≤ c.length →
      (AclDecoder.DecodeLoop n (c.drop k) acl).isSome →
      ∀ i, i < n → aceCursor c k i + 4 ≤ c.length ∧
        aceCursor c k i + u16At c (aceCursor c k i + 2) ≤ c.length := by
  intro n
  induction n with
  | zero => intro k acl _ _ i hi; omega
  | succ n ih =>
    intro k acl hk hsome
    simp only [AclDecoder.DecodeLoop, Option.bind_eq_bind] at hsome
    rw [AceDecoder_Size_drop c k hk] at hsome
    by_cases h4 : k + 4 ≤ c.length
    · rw [if_pos h4, Option.some_bind, sliceFrom_drop c k _ hk] at hsome
      by_cases hs : k + u16At c (k + 2) ≤ c.length
      · rw [if_pos hs, Option.some_bind] at hsome
        have hrest := ih _ _ hs hsome
        intro i hi
        cases i with
        | zero => exact ⟨h4, hs⟩
        | succ i =>
          rw [aceCursor_succ]
          exact hrest i (by omega)
      · rw [if_neg hs] at hsome
        simp at hsome
    · rw [if_neg h4] at hsome
      simp at hsome

theorem AclDecoder_Decode_eq (c : Bytes) :
    AclDecoder.Decode c
      = if 8 ≤ c.length then AclDecoder.DecodeLoop (u16At c 4) (c.drop 8) [] else none := by
  by_cases h8 : 8 ≤ c.length
  · have h := slice_Uint16 c 4
    rw [if_pos (by omega)] at h
    have hsl : slice c 4 6 = some ((c.take 6).drop 4) := by
      simp only [slice]
      rw [if_pos ⟨by omega, by omega⟩]
    have hs : sliceFrom c 8 = some (c.drop 8) := by
      simp only [sliceFrom]
      rw [if_pos h8]
    have e : (4 : Nat) + 2 = 6 := rfl
    rw [e, hsl, Option.some_bind] at h
    simp only [AclDecoder.Decode, Option.bind_eq_bind]
    rw [hsl, Option.some_bind, h, Option.some_bind, hs, Option.some_bind, if_pos h8]
  · have hs : sliceFrom c 8 = none := by
      simp only [sliceFrom]
      rw [if_neg h8]
    simp only [AclDecoder.Decode, Option.bind_eq_bind, hs, Option.none_bind]
    rw [if_neg h8]
    cases slice c 4 6 with
    | none => rfl
    | some b =>
      rw [Option.some_bind]
      cases le.Uint16 b <;> rfl
theorem AceDecoder_AccessMask_drop (c : Bytes) (k : Nat) (hk : k ≤ c.length) :
    AceDecoder.AccessMask (c.drop k) = (slice c (k + 4) (k + 8)).bind le.Uint32 := by
  have e : k + 8 = k + 4 + 4 := by omega
  rw [AceDecoder_AccessMask_eq, u32At_drop, List.length_drop, e, slice_Uint32]
  by_cases h : k + 4 + 4 ≤ c.length
  · rw [if_pos h, if_pos (by omega)]
  · rw [if_neg h, if_neg (by omega)]

theorem AceDecoder_Sid_drop (c : Bytes) (k : Nat) (hk : k ≤ c.length) :
    AceDecoder.Sid (c.drop k)
      = (sliceFrom c (k + 8)).bind
          (fun b => (SidDecoder.Decode b).bind (fun sid => some sid.String)) := by
  simp only [AceDecoder.Sid, Option.bind_eq_bind, Option.pure_def]
  rw [sliceFrom_drop c k 8 hk]
  simp only [sliceFrom]

/-- C2 fails as stated: the eight-byte ACL header `00 00 00 00 01 00 00 00` (declared size
0, one ACE) passes `AclDecoder.IsInvalid`, and `Decode` leaves the buffer when it reads
the size of the first ACE. -/
theorem AclDecoder_Decode_header_only :
    AclDecoder.IsInvalid [0, 0, 0, 0, 1, 0, 0, 0] = some false ∧
    AclDecoder.Decode [0, 0, 0, 0, 1, 0, 0, 0] = none := by decide

/-- C2, amended: on a buffer that `AclDecoder.IsInvalid` accepts, `Decode` completes
without an out-of-range access exactly when the walk stays inside the buffer: for every
`i` below the declared ACE count, the cursor `k_i` has `k_i + 4 <= len(c)` and
`k_i + size_i <= len(c)`. -/
theorem AclDecoder_Decode_isSome_iff (c : Bytes)
    (h : AclDecoder.IsInvalid c = some false) :
    (AclDecoder.Decode c).isSome ↔
      ∀ i, i < u16At c 4 → aceCursor c 8 i + 4 ≤ c.length ∧
        aceCursor c 8 i + u16At c (aceCursor c 8 i + 2) ≤ c.length := by
  have h8 : 8 ≤ c.length := by
    by_cases h8 : c.length < 8
    · simp [AclDecoder.IsInvalid, h8] at h
    · omega
  rw [AclDecoder_Decode_eq, if_pos h8]
  constructor
  · intro hs
    exact AclDecoder_DecodeLoop_isSome c _ 8 [] h8 hs
  · intro hw
    rw [AclDecoder_DecodeLoop_ok c _ 8 [] h8 hw]
    rfl

/-- A witness of C2, amended: an ACL of one ACE followed by eight more bytes. -/
theorem AclDecoder_Decode_isSome_iff_witness :
    (AclDecoder.Decode sampleAclTrailing).isSome ↔
      ∀ i, i < u16At sampleAclTrailing 4 →
        aceCursor sampleAclTrailing 8 i + 4 ≤ sampleAclTrailing.length ∧
        aceCursor sampleAclTrailing 8 i
          + u16At sampleAclTrailing (aceCursor sampleAclTrailing 8 i + 2)
          ≤ sampleAclTrailing.length :=
  AclDecoder_Decode_isSome_iff sampleAclTrailing (by decide)

/-- C3: for every buffer of at least 8 bytes whose little-endian `uint16` at bytes
`[4,6)` is `n`, and whose cursors `k_i = 8 + (declared sizes of ACEs 0..i-1)` satisfy
`k_i + 4 <= len(c)` and `k_i + size_i <= len(c)` for every `i < n`, `Decode` returns
exactly `n` views in order, the `i`-th being the suffix `c[k_i:]`; with `n = 2` the
second view starts right after the declared size of the first ACE; the `AccessMask` and
`Sid` of each view read the fields at `k_i + 4` and `k_i + 8`. -/
theorem AclDecoder_Decode_views (c : Bytes) (n : Nat) (hlen : 8 ≤ c.length)
    (hn : (slice c 4 6).bind le.Uint16 = some n)
    (hw : ∀ i, i < n → aceCursor c 8 i + 4 ≤ c.length ∧
      aceCursor c 8 i + u16At c (aceCursor c 8 i + 2) ≤ c.length) :
    AclDecoder.Decode c = some ((List.range n).map (fun i => c.drop (aceCursor c 8 i))) ∧
    (∀ i, i < n →
      (slice c (aceCursor c 8 i + 2) (aceCursor c 8 i + 4)).bind le.Uint16
        = some (u16At c (aceCursor c 8 i + 2))) ∧
    (n = 2 → AclDecoder.Decode c = some [c.drop 8, c.drop (8 + u16At c 10)]) ∧
    (∀ i, i < n →
      AceDecoder.AccessMask (c.drop (aceCursor c 8 i))
        = (slice c (aceCursor c 8 i + 4) (aceCursor c 8 i + 8)).bind le.Uint32 ∧
      AceDecoder.Sid (c.drop (aceCursor c 8 i))
        = (sliceFrom c (aceCursor c 8 i + 8)).bind
            (fun b => (SidDecoder.Decode b).bind (fun sid => some sid.String))) := by
  have hn' := slice_Uint16 c 4
  rw [if_pos (by omega)] at hn'
  have e : (4 : Nat) + 2 = 6 := rfl
  rw [e, hn] at hn'
  have hcount : u16At c 4 = n := (Option.some.inj hn').symm
  have hdec : AclDecoder.Decode c
      = some ((List.range n).map (fun i => c.drop (aceCursor c 8 i))) := by
    rw [AclDecoder_Decode_eq, if_pos hlen, hcount, AclDecoder_DecodeLoop_ok c n 8 [] hlen hw]
    rfl
  refine ⟨hdec, ?_, ?_, ?_⟩
  · intro i hi
    have e2 : aceCursor c 8 i + 4 = aceCursor c 8 i + 2 + 2 := by omega
    rw [e2, slice_Uint16, if_pos (by have := (hw i hi).1; omega)]
  · intro h2
    rw [hdec, h2]
    rfl
  · intro i hi
    have hk : aceCursor c 8 i ≤ c.length := by have := (hw i hi).1; omega
    exact ⟨AceDecoder_AccessMask_drop c _ hk, AceDecoder_Sid_drop c _ hk⟩

/-- A witness of C3: an ACL of two ACEs of 24 bytes each. -/
theorem AclDecoder_Decode_views_witness :
    AclDecoder.Decode sampleAcl
      = some ((List.range 2).map (fun i => sampleAcl.drop (aceCursor sampleAcl 8 i))) ∧
    (∀ i, i < 2 →
      (slice sampleAcl (aceCursor sampleAcl 8 i + 2) (aceCursor sampleAcl 8 i + 4)).bind
          le.Uint16
        = some (u16At sampleAcl (aceCursor sampleAcl 8 i + 2))) ∧
    (2 = 2 → AclDecoder.Decode sampleAcl
      = some [sampleAcl.drop 8, sampleAcl.drop (8 + u16At sampleAcl 10)]) ∧
    (∀ i, i < 2 →
      AceDecoder.AccessMask (sampleAcl.drop (aceCursor sampleAcl 8 i))
        = (slice sampleAcl (aceCursor sampleAcl 8 i + 4) (aceCursor sampleAcl 8 i + 8)).bind
            le.Uint32 ∧
      AceDecoder.Sid (sampleAcl.drop (aceCursor sampleAcl 8 i))
        = (sliceFrom sampleAcl (aceCursor sampleAcl 8 i + 8)).bind
            (fun b => (SidDecoder.Decode b).bind (fun sid => some sid.String))) :=
  AclDecoder_Decode_views sampleAcl 2 (by decide) (by decide) (by decide)

/-! ## Filetime: exact nanosecond counts -/

/-- C11: for every `Filetime` whose exact value
`((HighDateTime * 2^32 + LowDateTime) - 116444736000000000) * 100` lies in the range of
`int64`, `Nanoseconds` returns exactly that value, and neither the shift, nor the
addition, nor the subtraction, nor the multiplication wraps. -/
theorem Filetime_Nanoseconds_exact (ft : Filetime) (hft : ft.WF)
    (hlo : -2 ^ 63 ≤ (((ft.HighDateTime : Int) * 2 ^ 32 + ft.LowDateTime)
      - 116444736000000000) * 100)
    (hhi : (((ft.HighDateTime : Int) * 2 ^ 32 + ft.LowDateTime)
      - 116444736000000000) * 100 ≤ 2 ^ 63 - 1) :
    ft.Nanoseconds
      = (((ft.HighDateTime : Int) * 2 ^ 32 + ft.LowDateTime) - 116444736000000000) * 100 ∧
    int64 ((ft.HighDateTime : Int) * 2 ^ 32) = (ft.HighDateTime : Int) * 2 ^ 32 ∧
    int64 ((ft.HighDateTime : Int) * 2 ^ 32 + ft.LowDateTime)
      = (ft.HighDateTime : Int) * 2 ^ 32 + ft.LowDateTime ∧
    int64 ((ft.HighDateTime : Int) * 2 ^ 32 + ft.LowDateTime - 116444736000000000)
      = (ft.HighDateTime : Int) * 2 ^ 32 + ft.LowDateTime - 116444736000000000 ∧
    int64 (((ft.HighDateTime : Int) * 2 ^ 32 + ft.LowDateTime - 116444736000000000) * 100)
      = ((ft.HighDateTime : Int) * 2 ^ 32 + ft.LowDateTime - 116444736000000000) * 100 := by
  obtain ⟨lo, hi⟩ := ft
  obtain ⟨h1, h2⟩ := hft
  simp only at h1 h2 hlo hhi ⊢
  have e1 : int64 ((hi : Int) * 2 ^ 32) = (hi : Int) * 2 ^ 32 :=
    int64_of_range _ (by omega) (by omega)
  have e2 : int64 ((hi : Int) * 2 ^ 32 + (lo : Int)) = (hi : Int) * 2 ^ 32 + (lo : Int) :=
    int64_of_range _ (by omega) (by omega)
  have e3 : int64 ((hi : Int) * 2 ^ 32 + (lo : Int) - 116444736000000000)
      = (hi : Int) * 2 ^ 32 + (lo : Int) - 116444736000000000 :=
    int64_of_range _ (by omega) (by omega)
  have e4 : int64 (((hi : Int) * 2 ^ 32 + (lo : Int) - 116444736000000000) * 100)
      = ((hi : Int) * 2 ^ 32 + (lo : Int) - 116444736000000000) * 100 :=
    int64_of_range _ (by omega) (by omega)
  refine ⟨?_, e1, e2, e3, e4⟩
  simp only [Filetime.Nanoseconds, e1, e2, e3, e4]

/-- A witness of C11: the date `0x01d00000_00003039`. -/
theorem Filetime_Nanoseconds_exact_witness :
    (Filetime.mk 12345 30408704).Nanoseconds
      = (((30408704 : Int) * 2 ^ 32 + (12345 : Nat)) - 116444736000000000) * 100 ∧
    int64 (((30408704 : Nat) : Int) * 2 ^ 32) = ((30408704 : Nat) : Int) * 2 ^ 32 ∧
    int64 (((30408704 : Nat) : Int) * 2 ^ 32 + (12345 : Nat))
      = ((30408704 : Nat) : Int) * 2 ^ 32 + (12345 : Nat) ∧
    int64 (((30408704 : Nat) : Int) * 2 ^ 32 + (12345 : Nat) - 116444736000000000)
      = ((30408704 : Nat) : Int) * 2 ^ 32 + (12345 : Nat) - 116444736000000000 ∧
    int64 ((((30408704 : Nat) : Int) * 2 ^ 32 + (12345 : Nat) - 116444736000000000) * 100)
      = (((30408704 : Nat) : Int) * 2 ^ 32 + (12345 : Nat) - 116444736000000000) * 100 :=
  Filetime_Nanoseconds_exact (Filetime.mk 12345 30408704) (by decide) (by decide)
    (by decide)

/-- C12: for every `int64` `n`, `NsecToFiletime(n).Nanoseconds()` is `(n quot 100) * 100`
with the truncating quotient of Go, hence `n` itself when `n` is a multiple of 100; no
step of the conversion wraps: the tick count `n quot 100 + 116444736000000000` is a
non-negative number below `2^63`, split exactly into the two words. -/
theorem NsecToFiletime_roundtrip (n : Int) (hlo : -2 ^ 63 ≤ n) (hhi : n < 2 ^ 63) :
    (NsecToFiletime n).Nanoseconds = Int.tdiv n 100 * 100 ∧
    (n % 100 = 0 → (NsecToFiletime n).Nanoseconds = n) ∧
    (NsecToFiletime n).WF ∧
    ((NsecToFiletime n).HighDateTime : Int) * 2 ^ 32 + (NsecToFiletime n).LowDateTime
      = Int.tdiv n 100 + 116444736000000000 ∧
    0 ≤ Int.tdiv n 100 + 116444736000000000 ∧
    Int.tdiv n 100 + 116444736000000000 < 2 ^ 63 ∧
    -2 ^ 63 ≤ Int.tdiv n 100 * 100 ∧ Int.tdiv n 100 * 100 < 2 ^ 63 := by
  have hq : (0 ≤ n ∧ Int.tdiv n 100 = n / 100) ∨ (n < 0 ∧ Int.tdiv n 100 = -((-n) / 100)) := by
    by_cases h0 : 0 ≤ n
    · exact Or.inl ⟨h0, Int.tdiv_eq_ediv h0 (by decide)⟩
    · refine Or.inr ⟨by omega, ?_⟩
      have h1 : Int.tdiv (-(-n)) 100 = -(Int.tdiv (-n) 100) := Int.neg_tdiv _ _
      rw [Int.neg_neg] at h1
      rw [h1, Int.tdiv_eq_ediv (by omega) (by decide)]
  have hN : NsecToFiletime n
      = ⟨uint32 (int64 (int64 (Int.tdiv n 100) + 116444736000000000) % 2 ^ 32),
        uint32 (int64 (int64 (Int.tdiv n 100) + 116444736000000000) >>> (32 : Nat)
          % 2 ^ 32)⟩ := rfl
  rw [hN]
  generalize Int.tdiv n 100 = q at hq ⊢
  have hq1 : -92233720368547758 ≤ q := by omega
  have hq2 : q ≤ 92233720368547758 := by omega
  have hmul : n % 100 = 0 → q * 100 = n := by omega
  have e1 : int64 q = q := int64_of_range _ (by omega) (by omega)
  have e2 : int64 (q + 116444736000000000) = q + 116444736000000000 :=
    int64_of_range _ (by omega) (by omega)
  rw [e1, e2]
  have hL : ((uint32 ((q + 116444736000000000) % 2 ^ 32) : Nat) : Int)
      = (q + 116444736000000000) % 2 ^ 32 := by
    unfold uint32
    omega
  have hH : ((uint32 ((q + 116444736000000000) >>> (32 : Nat) % 2 ^ 32) : Nat) : Int)
      = (q + 116444736000000000) / 2 ^ 32 := by
    unfold uint32
    rw [Int.shiftRight_eq_div_pow]
    norm_num
    omega
  generalize uint32 ((q + 116444736000000000) % 2 ^ 32) = L at hL ⊢
  generalize uint32 ((q + 116444736000000000) >>> (32 : Nat) % 2 ^ 32) = H at hH ⊢
  have hsum : (H : Int) * 2 ^ 32 + (L : Int) = q + 116444736000000000 := by omega
  have f1 : int64 ((H : Int) * 2 ^ 32) = (H : Int) * 2 ^ 32 :=
    int64_of_range _ (by omega) (by omega)
  have f2 : int64 ((H : Int) * 2 ^ 32 + (L : Int)) = (H : Int) * 2 ^ 32 + (L : Int) :=
    int64_of_range _ (by omega) (by omega)
  have f3 : int64 ((H : Int) * 2 ^ 32 + (L : Int) - 116444736000000000) = q := by
    rw [int64_of_range _ (by omega) (by omega)]
    omega
  have f4 : int64 (q * 100) = q * 100 := int64_of_range _ (by omega) (by omega)
  have hns : (Filetime.mk L H).Nanoseconds = q * 100 := by
    simp only [Filetime.Nanoseconds, f1, f2, f3, f4]
  refine ⟨hns, ?_, ?_, hsum, by omega, by omega, by omega, by omega⟩
  · intro h0
    rw [hns]
    exact hmul h0
  · constructor
    · show L < 2 ^ 32
      omega
    · show H < 2 ^ 32
      omega

/-- A witness of C12: the least `int64`, which is not a multiple of 100. -/
theorem NsecToFiletime_roundtrip_witness :
    (NsecToFiletime (-9223372036854775808)).Nanoseconds
      = Int.tdiv (-9223372036854775808) 100 * 100 ∧
    ((-9223372036854775808 : Int) % 100 = 0 →
      (NsecToFiletime (-9223372036854775808)).Nanoseconds = -9223372036854775808) ∧
    (NsecToFiletime (-9223372036854775808)).WF ∧
    ((NsecToFiletime (-9223372036854775808)).HighDateTime : Int) * 2 ^ 32
        + (NsecToFiletime (-9223372036854775808)).LowDateTime
      = Int.tdiv (-9223372036854775808) 100 + 116444736000000000 ∧
    0 ≤ Int.tdiv (-9223372036854775808) 100 + 116444736000000000 ∧
    Int.tdiv (-9223372036854775808) 100 + 116444736000000000 < 2 ^ 63 ∧
    -2 ^ 63 ≤ Int.tdiv (-9223372036854775808) 100 * 100 ∧
    Int.tdiv (-9223372036854775808) 100 * 100 < 2 ^ 63 :=
  NsecToFiletime_roundtrip (-9223372036854775808) (by decide) (by decide)

/-! ## Sid.Encode: the layout of the written bytes -/

theorem slice_mid (A B C : Bytes) :
    slice (A ++ B ++ C) A.length (A.length + B.length) = some B := by
  have hlen : A.length + B.length ≤ (A ++ B ++ C).length := by
    simp only [List.length_append]
    omega
  simp only [slice]
  rw [if_pos ⟨by omega, hlen⟩]
  have e1 : (A ++ B ++ C).take (A.length + B.length) = A ++ B :=
    List.take_left' (by simp)
  rw [e1, List.drop_left]

theorem leBytes32s_append (xs ys : List Nat) :
    leBytes32s (xs ++ ys) = leBytes32s xs ++ leBytes32s ys := by
  induction xs with
  | nil => rfl
  | cons x xs ih => simp [leBytes32s, ih, List.append_assoc]

theorem list_split_at (us : List Nat) (i : Nat) (hi : i < us.length) :
    us = us.take i ++ us.getD i 0 :: us.drop (i + 1) := by
  have h1 : us.drop i = us.getD i 0 :: us.drop (i + 1) := by
    rw [List.drop_eq_getElem_cons hi]
    simp [List.getD_eq_getElem?_getD, List.getElem?_eq_getElem hi]
  conv_lhs => rw [← List.take_append_drop i us, h1]

theorem slice_leBytes32s (A : Bytes) (us : List Nat) (C : Bytes) (i : Nat)
    (hi : i < us.length) :
    slice (A ++ leBytes32s us ++ C) (A.length + 4 * i) (A.length + 4 * i + 4)
      = some (leBytes32 (us.getD i 0)) := by
  have hsplit := list_split_at us i hi
  have hl : (A ++ leBytes32s (us.take i)).length = A.length + 4 * i := by
    rw [List.length_append, length_leBytes32s, List.length_take]
    have : min i us.length = i := Nat.min_eq_left (by omega)
    omega
  have e : A ++ leBytes32s us ++ C
      = (A ++ leBytes32s (us.take i)) ++ leBytes32 (us.getD i 0)
        ++ (leBytes32s (us.drop (i + 1)) ++ C) := by
    conv_lhs => rw [hsplit]
    rw [leBytes32s_append]
    simp [leBytes32s, List.append_assoc]
  have h := slice_mid (A ++ leBytes32s (us.take i)) (leBytes32 (us.getD i 0))
    (leBytes32s (us.drop (i + 1)) ++ C)
  rw [hl] at h
  rw [e]
  exact h

theorem Sid_Encode_length (s : Sid) (p : Bytes) (hp : s.Size ≤ p.length) :
    (s.Revision :: byte s.SubAuthority.length :: beBytes48 s.IdentifierAuthority
      ++ leBytes32s s.SubAuthority ++ p.drop s.Size).length = p.length := by
  have h8 : (beBytes48 s.IdentifierAuthority).length = 6 := rfl
  simp only [List.length_cons, List.length_append, length_leBytes32s, List.length_drop, h8]
  unfold Sid.Size at hp ⊢
  omega

/-- C15: for every `Sid` and every buffer of at least `Size() = 8 + 4*len(SubAuthority)`
bytes, `Encode` leaves `Revision` in byte 0, `len(SubAuthority) mod 256` in byte 1, the
low 48 bits of `IdentifierAuthority` in bytes 2..7 with the most significant byte first,
the `i`-th sub-authority in bytes `[8+4i, 12+4i)` with the least significant byte first,
and every byte from index `Size()` on unchanged. -/
theorem Sid_Encode_layout (s : Sid) (hs : s.WF) (p : Bytes) (hp : s.Size ≤ p.length) :
    s.Size = 8 + 4 * s.SubAuthority.length ∧
    ∃ q, s.Encode p = some q ∧ q.length = p.length ∧
      index q 0 = some s.Revision ∧
      (∃ b, index q 1 = some b ∧ b.val = s.SubAuthority.length % 256) ∧
      slice q 2 8 = some (beBytes48 s.IdentifierAuthority) ∧
      (q.getD 2 0).val * 2 ^ 40 + (q.getD 3 0).val * 2 ^ 32 + (q.getD 4 0).val * 2 ^ 24
          + (q.getD 5 0).val * 2 ^ 16 + (q.getD 6 0).val * 2 ^ 8 + (q.getD 7 0).val
        = s.IdentifierAuthority % 2 ^ 48 ∧
      (∀ i, i < s.SubAuthority.length →
        slice q (8 + 4 * i) (12 + 4 * i) = some (leBytes32 (s.SubAuthority.getD i 0)) ∧
        u32At q (8 + 4 * i) = s.SubAuthority.getD i 0) ∧
      q.drop s.Size = p.drop s.Size := by
  refine ⟨by unfold Sid.Size; omega, _, Sid_Encode_eq s p hp, Sid_Encode_length s p hp,
    rfl, ⟨_, rfl, rfl⟩, ?_, ?_, ?_, ?_⟩
  · simp [slice, beBytes48]
  · simp only [beBytes48, List.cons_append, List.getD_cons_succ, List.getD_cons_zero,
      byte_val, Nat.shiftRight_eq_div_pow]
    omega
  · intro i hi
    have hA : (s.Revision :: byte s.SubAuthority.length
        :: beBytes48 s.IdentifierAuthority).length = 8 := rfl
    have e : s.Revision :: byte s.SubAuthority.length :: beBytes48 s.IdentifierAuthority
          ++ leBytes32s s.SubAuthority ++ p.drop s.Size
        = (s.Revision :: byte s.SubAuthority.length :: beBytes48 s.IdentifierAuthority)
          ++ leBytes32s s.SubAuthority ++ p.drop s.Size := by
      simp [List.append_assoc]
    constructor
    · have h := slice_leBytes32s (s.Revision :: byte s.SubAuthority.length
        :: beBytes48 s.IdentifierAuthority) s.SubAuthority (p.drop s.Size) i hi
      rw [hA] at h
      have e2 : 12 + 4 * i = 8 + 4 * i + 4 := by omega
      rw [e, e2]
      exact h
    · have h3 := u32At_append_left (s.Revision :: byte s.SubAuthority.length
        :: beBytes48 s.IdentifierAuthority) (leBytes32s s.SubAuthority ++ p.drop s.Size)
        (4 * i)
      rw [hA] at h3
      rw [e, List.append_assoc, h3, u32At_leBytes32s s.SubAuthority hs.2 i _ hi]
  · have hX : (s.Revision :: byte s.SubAuthority.length
        :: beBytes48 s.IdentifierAuthority ++ leBytes32s s.SubAuthority).length
        = s.Size := by
      have h8 : (beBytes48 s.IdentifierAuthority).length = 6 := rfl
      simp only [List.length_cons, List.length_append, length_leBytes32s, h8]
      unfold Sid.Size
      omega
    have e : s.Revision :: byte s.SubAuthority.length :: beBytes48 s.IdentifierAuthority
          ++ leBytes32s s.SubAuthority ++ p.drop s.Size
        = (s.Revision :: byte s.SubAuthority.length :: beBytes48 s.IdentifierAuthority
          ++ leBytes32s s.SubAuthority) ++ p.drop s.Size := by
      simp [List.append_assoc]
    rw [e, List.drop_left' hX]

/-- A witness of C15: the SID `S-1-5-32-544` written into 17 bytes. -/
theorem Sid_Encode_layout_witness :
    (Sid.mk 1 5 [32, 544]).Size = 8 + 4 * (Sid.mk 1 5 [32, 544]).SubAuthority.length ∧
    ∃ q, (Sid.mk 1 5 [32, 544]).Encode (List.replicate 17 7) = some q ∧
      q.length = (List.replicate 17 (7 : Byte)).length ∧
      index q 0 = some (Sid.mk 1 5 [32, 544]).Revision ∧
      (∃ b, index q 1 = some b ∧ b.val = (Sid.mk 1 5 [32, 544]).SubAuthority.length % 256) ∧
      slice q 2 8 = some (beBytes48 (Sid.mk 1 5 [32, 544]).IdentifierAuthority) ∧
      (q.getD 2 0).val * 2 ^ 40 + (q.getD 3 0).val * 2 ^ 32 + (q.getD 4 0).val * 2 ^ 24
          + (q.getD 5 0).val * 2 ^ 16 + (q.getD 6 0).val * 2 ^ 8 + (q.getD 7 0).val
        = (Sid.mk 1 5 [32, 544]).IdentifierAuthority % 2 ^ 48 ∧
      (∀ i, i < (Sid.mk 1 5 [32, 544]).SubAuthority.length →
        slice q (8 + 4 * i) (12 + 4 * i)
          = some (leBytes32 ((Sid.mk 1 5 [32, 544]).SubAuthority.getD i 0)) ∧
        u32At q (8 + 4 * i) = (Sid.mk 1 5 [32, 544]).SubAuthority.getD i 0) ∧
      q.drop (Sid.mk 1 5 [32, 544]).Size
        = (List.replicate 17 (7 : Byte)).drop (Sid.mk 1 5 [32, 544]).Size :=
  Sid_Encode_layout (Sid.mk 1 5 [32, 544]) (by decide) (List.replicate 17 7) (by decide)

theorem SidDecoder_Decode_SubAuthority (c : Bytes) (s : Sid)
    (h : SidDecoder.Decode c = some s) : SidDecoder.SubAuthority c = some s.SubAuthority := by
  simp only [SidDecoder.Decode, Option.bind_eq_bind, Option.pure_def] at h
  cases hr : SidDecoder.Revision c with
  | none => rw [hr] at h; simp at h
  | some r =>
    cases hia : SidDecoder.IdentifierAuthority c with
    | none => rw [hr, hia] at h; simp at h
    | some ia =>
      cases hsa : SidDecoder.SubAuthority c with
      | none => rw [hr, hia, hsa] at h; simp at h
      | some sa =>
        rw [hr, hia, hsa] at h
        simp only [Option.some_bind, Option.some.injEq] at h
        rw [← h]

theorem SidDecoder_Decode_count (c : Bytes) (s : Sid) (h : SidDecoder.Decode c = some s) :
    s.SubAuthority.length = (c.getD 1 0).val := by
  have hv : SidDecoder.IsInvalid c = some false := by
    rw [← SidDecoder_Decode_isSome, h]
    rfl
  obtain ⟨r, hr, hrl, _⟩ := SidDecoder_SubAuthority_spec c hv
  have h2 := SidDecoder_Decode_SubAuthority c s h
  rw [hr] at h2
  rw [← Option.some.inj h2]
  exact hrl

/-- C16 fails as stated: a `Sid` with 256 sub-authorities is encoded into a buffer of
`Size() = 1032` bytes without any error, and the buffer is overwritten. -/
theorem Sid_Encode_256_no_error :
    255 < (Sid.mk 1 5 (List.replicate 256 0)).SubAuthority.length ∧
    (Sid.mk 1 5 (List.replicate 256 0)).Size = (List.replicate 1032 (7 : Byte)).length ∧
    ∃ q, (Sid.mk 1 5 (List.replicate 256 0)).Encode (List.replicate 1032 7) = some q ∧
      q ≠ List.replicate 1032 7 ∧ index q 1 = some 0 := by
  have hlen : (Sid.mk 1 5 (List.replicate 256 0)).SubAuthority.length = 256 :=
    List.length_replicate 256 0
  have hsize : (Sid.mk 1 5 (List.replicate 256 0)).Size = 1032 := by
    unfold Sid.Size
    rw [hlen]
  have hp : (List.replicate 1032 (7 : Byte)).length = 1032 := List.length_replicate 1032 7
  refine ⟨by rw [hlen]; decide, by rw [hsize, hp], _,
    Sid_Encode_eq _ _ (by rw [hsize, hp]), ?_, ?_⟩
  · intro h
    have e : List.replicate 1032 (7 : Byte) = 7 :: List.replicate 1031 7 :=
      List.replicate_succ 7 1031
    rw [e] at h
    have h0 := (List.cons.inj h).1
    exact absurd h0 (by decide)
  · simp only [List.cons_append, index, List.get?_cons_succ, List.get?_cons_zero, hlen]
    rfl

/-- C16, amended: for every `Sid` with more than 255 sub-authorities and every buffer of
at least `Size()` bytes, `Encode` reports nothing to its caller: it completes, writes the
whole encoding with `len(SubAuthority) mod 256` in the count byte, and the written bytes
do not decode to the `Sid` again. -/
theorem Sid_Encode_count_truncated (s : Sid) (hn : 255 < s.SubAuthority.length)
    (p : Bytes) (hp : s.Size ≤ p.length) :
    ∃ q, s.Encode p = some q ∧
      q = s.Revision :: byte s.SubAuthority.length :: beBytes48 s.IdentifierAuthority
        ++ leBytes32s s.SubAuthority ++ p.drop s.Size ∧
      (∃ b, index q 1 = some b ∧ b.val = s.SubAuthority.length % 256 ∧
        b.val ≠ s.SubAuthority.length) ∧
      SidDecoder.Decode q ≠ some s := by
  refine ⟨_, Sid_Encode_eq s p hp, rfl, ⟨_, rfl, rfl, ?_⟩, ?_⟩
  · rw [byte_val]
    omega
  · intro hd
    have hc := SidDecoder_Decode_count _ s hd
    simp only [List.cons_append, List.getD_cons_succ, List.getD_cons_zero, byte_val] at hc
    omega

/-- A witness of C16, amended: 256 sub-authorities in a buffer of 1032 bytes. -/
theorem Sid_Encode_count_truncated_witness :
    ∃ q, (Sid.mk 1 5 (List.replicate 256 0)).Encode (List.replicate 1032 7) = some q ∧
      q = (Sid.mk 1 5 (List.replicate 256 0)).Revision
        :: byte (Sid.mk 1 5 (List.replicate 256 0)).SubAuthority.length
        :: beBytes48 (Sid.mk 1 5 (List.replicate 256 0)).IdentifierAuthority
        ++ leBytes32s (Sid.mk 1 5 (List.replicate 256 0)).SubAuthority
        ++ (List.replicate 1032 (7 : Byte)).drop (Sid.mk 1 5 (List.replicate 256 0)).Size ∧
      (∃ b, index q 1 = some b ∧
        b.val = (Sid.mk 1 5 (List.replicate 256 0)).SubAuthority.length % 256 ∧
        b.val ≠ (Sid.mk 1 5 (List.replicate 256 0)).SubAuthority.length) ∧
      SidDecoder.Decode q ≠ some (Sid.mk 1 5 (List.replicate 256 0)) :=
  Sid_Encode_count_truncated (Sid.mk 1 5 (List.replicate 256 0))
    (by
      show 255 < (List.replicate 256 (0 : Nat)).length
      rw [List.length_replicate]
      decide)
    (List.replicate 1032 7)
    (by
      unfold Sid.Size
      simp only [List.length_replicate]
      decide)

/-! ## Re-encoding a decoded SID -/

theorem byte_of_val (b : Byte) : byte b.val = b := by
  apply Fin.ext
  rw [byte_val]
  omega

theorem take_four (l : Bytes) (h : 4 ≤ l.length) :
    l.take 4 = [l.getD 0 0, l.getD 1 0, l.getD 2 0, l.getD 3 0] := by
  match l, h with
  | a :: b :: c :: d :: t, _ => simp

theorem take_eight (l : Bytes) (h : 8 ≤ l.length) :
    l.take 8 = [l.getD 0 0, l.getD 1 0, l.getD 2 0, l.getD 3 0, l.getD 4 0, l.getD 5 0,
      l.getD 6 0, l.getD 7 0] := by
  match l, h with
  | a0 :: a1 :: a2 :: a3 :: a4 :: a5 :: a6 :: a7 :: t, _ => simp

theorem leBytes32_u32At (c : Bytes) (k : Nat) (h : k + 4 ≤ c.length) :
    leBytes32 (u32At c k) = (c.drop k).take 4 := by
  rw [take_four _ (by rw [List.length_drop]; omega)]
  simp only [getD_drop, Nat.add_zero]
  have h0 := (c.getD k 0).isLt
  have h1 := (c.getD (k + 1) 0).isLt
  have h2 := (c.getD (k + 2) 0).isLt
  have h3 := (c.getD (k + 3) 0).isLt
  simp only [leBytes32, u32At, List.cons.injEq, and_true]
  refine ⟨?_, ?_, ?_, ?_⟩ <;>
  · apply Fin.ext
    simp only [byte_val, Nat.shiftRight_eq_div_pow]
    omega

theorem leBytes32s_of_words (c : Bytes) :
    ∀ (as : List Nat) (k : Nat), k + 4 * as.length ≤ c.length →
      (∀ j, j < as.length → as.getD j 0 = u32At c (k + 4 * j)) →
      leBytes32s as = (c.drop k).take (4 * as.length) := by
  intro as
  induction as with
  | nil => intro k _ _; simp [leBytes32s]
  | cons a as ih =>
    intro k hk hget
    have ha : a = u32At c k := by
      have := hget 0 (by simp)
      simpa using this
    have hrest := ih (k + 4) (by simp only [List.length_cons] at hk; omega)
      (fun j hj => by
        have := hget (j + 1) (by simp only [List.length_cons]; omega)
        have e : k + 4 * (j + 1) = k + 4 + 4 * j := by omega
        rw [e] at this
        simpa using this)
    have e : 4 * (a :: as).length = 4 + 4 * as.length := by
      simp only [List.length_cons]
      omega
    rw [e, List.take_add, List.drop_drop, leBytes32s, ha,
      leBytes32_u32At c k (by simp only [List.length_cons] at hk; omega), hrest]

theorem beBytes48_of_bytes (b2 b3 b4 b5 b6 b7 : Byte) :
    beBytes48 (b7.val + b6.val * 2 ^ 8 + b5.val * 2 ^ 16 + b4.val * 2 ^ 24
      + b3.val * 2 ^ 32 + b2.val * 2 ^ 40) = [b2, b3, b4, b5, b6, b7] := by
  have h2 := b2.isLt
  have h3 := b3.isLt
  have h4 := b4.isLt
  have h5 := b5.isLt
  have h6 := b6.isLt
  have h7 := b7.isLt
  simp only [beBytes48, List.cons.injEq, and_true]
  refine ⟨?_, ?_, ?_, ?_, ?_, ?_⟩ <;>
  · apply Fin.ext
    simp only [byte_val, Nat.shiftRight_eq_div_pow]
    omega
theorem SidDecoder_Decode_value (c : Bytes) (h : SidDecoder.IsInvalid c = some false) :
    ∃ as, as.length = (c.getD 1 0).val ∧
      (∀ j, j < as.length → as.getD j 0 = u32At c (8 + 4 * j)) ∧
      SidDecoder.Decode c = some ⟨c.getD 0 0,
        (c.getD 7 0).val + (c.getD 6 0).val * 2 ^ 8 + (c.getD 5 0).val * 2 ^ 16
          + (c.getD 4 0).val * 2 ^ 24 + (c.getD 3 0).val * 2 ^ 32
          + (c.getD 2 0).val * 2 ^ 40, as⟩ := by
  have hv := h
  rw [SidDecoder_IsInvalid_eq] at hv
  have h' : ¬ (c.length < 8 ∨ c.length < 8 + 4 * (c.getD 1 0).val) := by
    simpa using hv
  have h0 := index_of_lt c 0 0 (by omega)
  have hia := SidDecoder_IdentifierAuthority_eq c (by omega)
  obtain ⟨as, has, hlen, hget⟩ := SidDecoder_SubAuthority_spec c h
  refine ⟨as, hlen, fun j hj => hget j (by omega), ?_⟩
  simp only [SidDecoder.Decode, SidDecoder.Revision, h0, hia, has, Option.bind_eq_bind,
    Option.some_bind, Option.pure_def]

/-- C19: for every buffer that `SidDecoder.IsInvalid` accepts, the decoded `Sid` has
`Size() = 8 + 4*c[1]`, and encoding it into any buffer of `Size()` bytes yields exactly
the first `Size()` bytes of the buffer it was decoded from. -/
theorem Sid_Decode_Encode (c : Bytes) (h : SidDecoder.IsInvalid c = some false) :
    ∃ s, SidDecoder.Decode c = some s ∧ s.Size = 8 + 4 * (c.getD 1 0).val ∧
      s.Size ≤ c.length ∧
      ∀ p : Bytes, p.length = s.Size → s.Encode p = some (c.take s.Size) := by
  have hv := h
  rw [SidDecoder_IsInvalid_eq] at hv
  have h' : ¬ (c.length < 8 ∨ c.length < 8 + 4 * (c.getD 1 0).val) := by
    simpa using hv
  obtain ⟨as, hlen, hget, hdec⟩ := SidDecoder_Decode_value c h
  have hsize : (Sid.mk (c.getD 0 0)
      ((c.getD 7 0).val + (c.getD 6 0).val * 2 ^ 8 + (c.getD 5 0).val * 2 ^ 16
          + (c.getD 4 0).val * 2 ^ 24 + (c.getD 3 0).val * 2 ^ 32
          + (c.getD 2 0).val * 2 ^ 40) as).Size = 8 + 4 * (c.getD 1 0).val := by
    unfold Sid.Size
    simp only
    omega
  refine ⟨_, hdec, hsize, by rw [hsize]; omega, ?_⟩
  intro p hp
  rw [Sid_Encode_eq _ p (by omega)]
  have hdrop : p.drop (Sid.mk (c.getD 0 0)
      ((c.getD 7 0).val + (c.getD 6 0).val * 2 ^ 8 + (c.getD 5 0).val * 2 ^ 16
          + (c.getD 4 0).val * 2 ^ 24 + (c.getD 3 0).val * 2 ^ 32
          + (c.getD 2 0).val * 2 ^ 40) as).Size = [] :=
    List.drop_eq_nil_of_le (by omega)
  rw [hdrop, hsize]
  simp only
  rw [beBytes48_of_bytes, hlen, byte_of_val,
    leBytes32s_of_words c as 8 (by omega) hget, hlen, List.take_add,
    take_eight c (by omega)]
  simp

/-- A witness of C19: the 16 bytes of `S-1-5-32-544` followed by one more byte. -/
theorem Sid_Decode_Encode_witness :
    ∃ s, SidDecoder.Decode [1, 2, 0, 0, 0, 0, 0, 5, 32, 0, 0, 0, 32, 2, 0, 0, 9] = some s ∧
      s.Size = 8 + 4 * (([1, 2, 0, 0, 0, 0, 0, 5, 32, 0, 0, 0, 32, 2, 0, 0, 9]
        : Bytes).getD 1 0).val ∧
      s.Size ≤ ([1, 2, 0, 0, 0, 0, 0, 5, 32, 0, 0, 0, 32, 2, 0, 0, 9] : Bytes).length ∧
      ∀ p : Bytes, p.length = s.Size →
        s.Encode p
          = some (([1, 2, 0, 0, 0, 0, 0, 5, 32, 0, 0, 0, 32, 2, 0, 0, 9] : Bytes).take s.Size) :=
  Sid_Decode_Encode [1, 2, 0, 0, 0, 0, 0, 5, 32, 0, 0, 0, 32, 2, 0, 0, 9] (by decide)

/-! ## The ACL walk and the views it returns -/

theorem Slice_slice_Uint16Cap (s : Slice) (k : Nat) :
    (s.slice k (k + 2)).bind le.Uint16Cap
      = if k + 2 ≤ s.cap then some (u16At s.data k) else none := by
  by_cases h : k + 2 ≤ s.cap
  · have hl : k + 2 ≤ s.data.length := h
    have h0 : (s.data.drop k).get? 0 = some (s.data.getD k 0) := by
      have := index_of_lt (s.data.drop k) 0 0 (by rw [List.length_drop]; omega)
      rw [getD_drop] at this
      exact this
    have h1 : (s.data.drop k).get? 1 = some (s.data.getD (k + 1) 0) := by
      have := index_of_lt (s.data.drop k) 1 0 (by rw [List.length_drop]; omega)
      rw [getD_drop] at this
      exact this
    have hb := (s.data.getD k 0).isLt
    have e : k + 2 - k = 2 := by omega
    simp only [Slice.slice]
    rw [if_pos ⟨by omega, h⟩, if_pos h, Option.some_bind, e]
    simp only [le.Uint16Cap, Slice.index, Option.bind_eq_bind, Option.pure_def]
    rw [if_pos (by omega), if_pos (by omega), h0, h1]
    simp only [Option.some_bind, Option.some.injEq]
    rw [lor_shiftLeft _ _ 8 (by omega)]
    rfl
  · simp only [Slice.slice]
    rw [if_neg (fun hh => h hh.2), if_neg h]
    rfl

theorem AceDecoder_SizeCap_eq (s : Slice) :
    AceDecoder.SizeCap s = if 4 ≤ s.cap then some (u16At s.data 2) else none :=
  Slice_slice_Uint16Cap s 2

theorem AclDecoder_DecodeLoopCap_views :
    ∀ (n : Nat) (aceData : Slice) (acl r : List Slice), aceData.WF →
      AclDecoder.DecodeLoopCap n aceData acl = some r →
      ∀ v, v ∈ r → v ∈ acl ∨
        (v.WF ∧ (∃ sz, AceDecoder.SizeCap v = some sz ∧ sz ≤ v.len) ∧
          (aceData.len = aceData.cap → 4 ≤ v.len)) := by
  intro n
  induction n with
  | zero =>
    intro aceData acl r _ hr v hv
    simp only [AclDecoder.DecodeLoopCap, Option.some.injEq] at hr
    rw [← hr] at hv
    exact Or.inl hv
  | succ n ih =>
    intro aceData acl r hwf hr v hv
    simp only [AclDecoder.DecodeLoopCap, Option.bind_eq_bind] at hr
    cases hs : AceDecoder.SizeCap aceData with
    | none => rw [hs] at hr; simp at hr
    | some sz =>
      rw [hs, Option.some_bind] at hr
      have hcap : 4 ≤ aceData.cap := by
        rw [AceDecoder_SizeCap_eq] at hs
        by_cases h4 : 4 ≤ aceData.cap
        · exact h4
        · rw [if_neg h4] at hs
          simp at hs
      by_cases hle : sz ≤ aceData.len
      · have hsl : aceData.sliceFrom sz = some ⟨aceData.data.drop sz, aceData.len - sz⟩ := by
          simp only [Slice.sliceFrom]
          rw [if_pos hle]
        rw [hsl, Option.some_bind] at hr
        have hwf' : (Slice.mk (aceData.data.drop sz) (aceData.len - sz)).WF := by
          unfold Slice.WF Slice.cap at hwf ⊢
          simp only [List.length_drop]
          omega
        rcases ih _ _ r hwf' hr v hv with hin | ⟨h1, h2, h3⟩
        · rcases List.mem_append.1 hin with h | h
          · exact Or.inl h
          · have hv' : v = aceData := by simpa using h
            subst hv'
            exact Or.inr ⟨hwf, ⟨sz, hs, hle⟩, fun he => by omega⟩
        · refine Or.inr ⟨h1, h2, fun he => h3 ?_⟩
          unfold Slice.WF Slice.cap at *
          simp only [List.length_drop]
          omega
      · have hsl : aceData.sliceFrom sz = none := by
          simp only [Slice.sliceFrom]
          rw [if_neg hle]
        rw [hsl] at hr
        simp at hr

theorem AclDecoder_DecodeCap_loop (c : Slice) (r : List Slice)
    (h : AclDecoder.DecodeCap c = some r) :
    ∃ n, 8 ≤ c.len ∧
      AclDecoder.DecodeLoopCap n ⟨c.data.drop 8, c.len - 8⟩ [] = some r := by
  simp only [AclDecoder.DecodeCap, Option.bind_eq_bind] at h
  cases hb : c.slice 4 6 with
  | none => rw [hb] at h; simp at h
  | some b =>
    rw [hb, Option.some_bind] at h
    cases hn : le.Uint16Cap b with
    | none => rw [hn] at h; simp at h
    | some n =>
      rw [hn, Option.some_bind] at h
      by_cases h8 : 8 ≤ c.len
      · have hsl : c.sliceFrom 8 = some ⟨c.data.drop 8, c.len - 8⟩ := by
          simp only [Slice.sliceFrom]
          rw [if_pos h8]
        rw [hsl, Option.some_bind] at h
        exact ⟨n, h8, h⟩
      · have hsl : c.sliceFrom 8 = none := by
          simp only [Slice.sliceFrom]
          rw [if_neg h8]
        rw [hsl] at h
        simp at h

/-! On a slice without spare capacity the walk is the walk over the list of its bytes. -/

theorem Slice_sliceFrom_ofBytes (d : Bytes) (k : Nat) :
    (Slice.ofBytes d).sliceFrom k = (sliceFrom d k).map Slice.ofBytes := by
  simp only [Slice.sliceFrom, sliceFrom, Slice.ofBytes]
  by_cases h : k ≤ d.length
  · rw [if_pos h, if_pos h]
    simp [Slice.ofBytes]
  · rw [if_neg h, if_neg h]
    rfl

theorem AclDecoder_DecodeLoopCap_ofBytes :
    ∀ (n : Nat) (d : Bytes) (acl : List Bytes),
      AclDecoder.DecodeLoopCap n (Slice.ofBytes d) (acl.map Slice.ofBytes)
        = (AclDecoder.DecodeLoop n d acl).map (List.map Slice.ofBytes) := by
  intro n
  induction n with
  | zero => intro d acl; rfl
  | succ n ih =>
    intro d acl
    have hsz : AceDecoder.SizeCap (Slice.ofBytes d) = AceDecoder.Size d := by
      rw [AceDecoder_SizeCap_eq, AceDecoder_Size_eq]
      rfl
    simp only [AclDecoder.DecodeLoopCap, AclDecoder.DecodeLoop, Option.bind_eq_bind]
    rw [hsz]
    cases AceDecoder.Size d with
    | none => rfl
    | some sz =>
      rw [Option.some_bind, Option.some_bind, Slice_sliceFrom_ofBytes]
      cases sliceFrom d sz with
      | none => rfl
      | some d' =>
        simp only [Option.map_some', Option.some_bind]
        have := ih d' (acl ++ [d])
        simp only [List.map_append, List.map_cons, List.map_nil] at this
        exact this

theorem AclDecoder_DecodeCap_ofBytes (c : Bytes) :
    AclDecoder.DecodeCap (Slice.ofBytes c)
      = (AclDecoder.Decode c).map (List.map Slice.ofBytes) := by
  have h1 := Slice_slice_Uint16Cap (Slice.ofBytes c) 4
  have h2 := slice_Uint16 c 4
  have e : (4 : Nat) + 2 = 6 := rfl
  rw [e] at h1 h2
  have h12 : ((Slice.ofBytes c).slice 4 6).bind le.Uint16Cap
      = (slice c 4 6).bind le.Uint16 := by
    rw [h1, h2]
    rfl
  have hloop := fun n d => AclDecoder_DecodeLoopCap_ofBytes n d []
  simp only [List.map_nil] at hloop
  have hcap : AclDecoder.DecodeCap (Slice.ofBytes c)
      = (((Slice.ofBytes c).slice 4 6).bind le.Uint16Cap).bind (fun count =>
          ((Slice.ofBytes c).sliceFrom 8).bind (fun aceData =>
            AclDecoder.DecodeLoopCap count aceData [])) := by
    simp only [AclDecoder.DecodeCap, Option.bind_eq_bind, Option.bind_assoc]
  have hlist : AclDecoder.Decode c
      = ((slice c 4 6).bind le.Uint16).bind (fun count =>
          (sliceFrom c 8).bind (fun aceData => AclDecoder.DecodeLoop count aceData [])) := by
    simp only [AclDecoder.Decode, Option.bind_eq_bind, Option.bind_assoc]
  rw [hcap, hlist, h12, Slice_sliceFrom_ofBytes]
  cases (slice c 4 6).bind le.Uint16 with
  | none => rfl
  | some n =>
    simp only [Option.some_bind]
    cases sliceFrom c 8 with
    | none => rfl
    | some d =>
      simp only [Option.map_some', Option.some_bind]
      exact hloop n d

/-- C17 fails as stated: on a slice of 8 bytes with 4 bytes of spare capacity, whose
header declares one ACE, the walk reads the size of the ACE from the spare capacity and
returns a view of length 0. -/
theorem AclDecoder_Decode_spare_capacity :
    (Slice.mk [0, 0, 0, 0, 1, 0, 0, 0, 0, 0, 0, 0] 8).WF ∧
    AclDecoder.DecodeCap ⟨[0, 0, 0, 0, 1, 0, 0, 0, 0, 0, 0, 0], 8⟩
      = some [⟨[0, 0, 0, 0], 0⟩] ∧
    (Slice.mk [0, 0, 0, 0] 0).len < 4 := by decide

/-- C17, amended: for every buffer on which `AclDecoder.Decode` returns a result, every
ACE view in the result has a declared size that does not exceed the bytes remaining in
the view, and, when the capacity of the buffer equals its length, a readable header of
at least 4 bytes. -/
theorem AclDecoder_Decode_views_sized (c : Slice) (hc : c.WF) (r : List Slice)
    (h : AclDecoder.DecodeCap c = some r) (v : Slice) (hv : v ∈ r) :
    (∃ sz, AceDecoder.SizeCap v = some sz ∧ sz ≤ v.len) ∧ (c.len = c.cap → 4 ≤ v.len) := by
  obtain ⟨n, h8, hloop⟩ := AclDecoder_DecodeCap_loop c r h
  have hwf : (Slice.mk (c.data.drop 8) (c.len - 8)).WF := by
    unfold Slice.WF Slice.cap at hc ⊢
    simp only [List.length_drop]
    omega
  rcases AclDecoder_DecodeLoopCap_views n _ [] r hwf hloop v hv with hin | ⟨_, h2, h3⟩
  · simp at hin
  · refine ⟨h2, fun he => h3 ?_⟩
    unfold Slice.cap at he ⊢
    simp only [List.length_drop]
    omega

/-- A witness of C17, amended: the last view of an ACL of two ACEs that fills its
buffer. -/
theorem AclDecoder_Decode_views_sized_witness :
    (∃ sz, AceDecoder.SizeCap (Slice.ofBytes (sampleAcl.drop 32)) = some sz ∧
      sz ≤ (Slice.ofBytes (sampleAcl.drop 32)).len) ∧
    ((Slice.ofBytes sampleAcl).len = (Slice.ofBytes sampleAcl).cap →
      4 ≤ (Slice.ofBytes (sampleAcl.drop 32)).len) :=
  AclDecoder_Decode_views_sized (Slice.ofBytes sampleAcl) (by decide)
    [Slice.ofBytes (sampleAcl.drop 8), Slice.ofBytes (sampleAcl.drop 32)] (by decide)
    (Slice.ofBytes (sampleAcl.drop 32)) (by decide)

/-- C18 on the code: `Decode` returns the two views of an ACL of two ACEs of 24 bytes
that fills its buffer; the last view has 24 bytes and the declared size 24, and
`AceDecoder.IsInvalid` rejects it, because it asks for `4 + Size()` bytes. -/
theorem AclDecoder_Decode_last_view_rejected :
    AclDecoder.Decode sampleAcl = some [sampleAcl.drop 8, sampleAcl.drop 32] ∧
    (sampleAcl.drop 32).length = 24 ∧
    AceDecoder.Size (sampleAcl.drop 32) = some 24 ∧
    AceDecoder.IsInvalid (sampleAcl.drop 8) = some false ∧
    AceDecoder.IsInvalid (sampleAcl.drop 32) = some true := by decide

/-! ## Digits -/

theorem toDigitsCore_eq (b : Nat) (hb : 1 < b) :
    ∀ (fuel n : Nat) (acc : List Char), 0 < n → n < fuel →
      Nat.toDigitsCore b fuel n acc
        = ((Nat.digits b n).reverse.map Nat.digitChar) ++ acc := by
  intro fuel
  induction fuel with
  | zero => intro n acc _ h; omega
  | succ fuel ih =>
    intro n acc hn hlt
    have hd : Nat.digits b n = (n % b) :: Nat.digits b (n / b) :=
      Nat.digits_def' hb hn
    simp only [Nat.toDigitsCore]
    by_cases h0 : n / b = 0
    · rw [if_pos h0, hd, h0, Nat.digits_zero]
      rfl
    · rw [if_neg h0]
      have hlt' : n / b < fuel := by
        have : n / b < n := Nat.div_lt_self hn hb
        omega
      rw [ih (n / b) _ (Nat.pos_of_ne_zero h0) hlt', hd]
      simp

theorem toDigits_eq (b : Nat) (hb : 1 < b) (n : Nat) :
    Nat.toDigits b n
      = (if n = 0 then [0] else (Nat.digits b n).reverse).map Nat.digitChar := by
  by_cases h : n = 0
  · subst h
    simp [Nat.toDigits, Nat.toDigitsCore]
  · rw [if_neg h]
    unfold Nat.toDigits
    rw [toDigitsCore_eq b hb (n + 1) n [] (by omega) (by omega)]
    simp

theorem digitChar_inj : ∀ a, a < 16 → ∀ c, c < 16 →
    Nat.digitChar a = Nat.digitChar c → a = c := by decide

theorem digitChar_ne : ∀ a, a < 16 →
    Nat.digitChar a ≠ '-' ∧ Nat.digitChar a ≠ 'x' ∧
      Nat.digitChar a ∈ ['0', '1', '2', '3', '4', '5', '6', '7', '8', '9', 'a', 'b', 'c',
        'd', 'e', 'f'] := by decide

theorem map_digitChar_inj :
    ∀ (l l' : List Nat), (∀ d ∈ l, d < 16) → (∀ d ∈ l', d < 16) →
      l.map Nat.digitChar = l'.map Nat.digitChar → l = l' := by
  intro l
  induction l with
  | nil =>
    intro l' _ _ h
    cases l' with
    | nil => rfl
    | cons a t => simp at h
  | cons a t ih =>
    intro l' hl hl' h
    cases l' with
    | nil => simp at h
    | cons a' t' =>
      simp only [List.map_cons, List.cons.injEq] at h
      have ha := digitChar_inj a (hl a (by simp)) a' (hl' a' (by simp)) h.1
      have ht := ih t' (fun d hd => hl d (by simp [hd])) (fun d hd => hl' d (by simp [hd])) h.2
      rw [ha, ht]

theorem digitList_lt (b : Nat) (hb : 1 < b) (hb16 : b ≤ 16) (n : Nat) :
    ∀ d ∈ (if n = 0 then [0] else (Nat.digits b n).reverse), d < 16 := by
  intro d hd
  by_cases h : n = 0
  · rw [if_pos h] at hd
    simp at hd
    omega
  · rw [if_neg h] at hd
    have := Nat.digits_lt_base hb (List.mem_reverse.1 hd)
    omega

theorem toDigits_inj (b : Nat) (hb : 1 < b) (hb16 : b ≤ 16) (n m : Nat)
    (h : Nat.toDigits b n = Nat.toDigits b m) : n = m := by
  rw [toDigits_eq b hb, toDigits_eq b hb] at h
  have hl := map_digitChar_inj _ _ (digitList_lt b hb hb16 n) (digitList_lt b hb hb16 m) h
  by_cases hn : n = 0 <;> by_cases hm : m = 0
  · rw [hn, hm]
  · rw [if_pos hn, if_neg hm] at hl
    have h1 : Nat.digits b m = [0] := by
      have := congrArg List.reverse hl
      simpa using this.symm
    have h2 := Nat.ofDigits_digits b m
    rw [h1] at h2
    simp [Nat.ofDigits] at h2
    omega
  · rw [if_neg hn, if_pos hm] at hl
    have h1 : Nat.digits b n = [0] := by
      have := congrArg List.reverse hl
      simpa using this
    have h2 := Nat.ofDigits_digits b n
    rw [h1] at h2
    simp [Nat.ofDigits] at h2
    omega
  · rw [if_neg hn, if_neg hm] at hl
    have := congrArg List.reverse hl
    simp only [List.reverse_reverse] at this
    exact Nat.digits_inj_iff.1 this

theorem toDigits_chars (b : Nat) (hb : 1 < b) (hb16 : b ≤ 16) (n : Nat) :
    ∀ c ∈ Nat.toDigits b n, c ≠ '-' ∧ c ≠ 'x' ∧
      c ∈ ['0', '1', '2', '3', '4', '5', '6', '7', '8', '9', 'a', 'b', 'c', 'd', 'e', 'f'] := by
  intro c hc
  rw [toDigits_eq b hb] at hc
  obtain ⟨d, hd, rfl⟩ := List.mem_map.1 hc
  exact digitChar_ne d (digitList_lt b hb hb16 n d hd)

theorem toDigits_ne_nil (b : Nat) (hb : 1 < b) (n : Nat) : Nat.toDigits b n ≠ [] := by
  rw [toDigits_eq b hb]
  by_cases h : n = 0
  · rw [if_pos h]
    simp
  · rw [if_neg h]
    intro he
    have h1 : Nat.digits b n = [] := by simpa using he
    exact h (Nat.digits_eq_nil_iff_eq_zero.1 h1)

/-! ## Sid.String -/

theorem intercalate_go_data (sep : String) :
    ∀ (l : List String) (acc : String),
      (String.intercalate.go acc sep l).data
        = acc.data ++ (l.map (fun a => sep.data ++ a.data)).flatten := by
  intro l
  induction l with
  | nil => intro acc; simp [String.intercalate.go]
  | cons a t ih =>
    intro acc
    simp only [String.intercalate.go, ih, String.data_append, List.map_cons, List.flatten_cons,
      List.append_assoc]

theorem dashed_eq_join (ws : List (List Char)) :
    dashed ws = (ws.map (fun w => '-' :: w)).flatten := by
  induction ws with
  | nil => rfl
  | cons w t ih => simp [dashed, ih]

theorem foldl_append_singleton {α β : Type} (f : α → β) :
    ∀ (l : List α) (init : List β),
      l.foldl (fun acc a => acc ++ [f a]) init = init ++ l.map f := by
  intro l
  induction l with
  | nil => intro init; simp
  | cons a t ih => intro init; simp [ih]

theorem strconv_Itoa_nat (n : Nat) : strconv.Itoa (n : Int) = strconv.FormatUint n 10 := by
  unfold strconv.Itoa
  rw [if_neg (by omega)]
  simp

theorem Sid_String_data (sid : Sid) : sid.String.data = 'S' :: dashed sid.words := by
  simp only [Sid.String, strings.Join, foldl_append_singleton, strconv_Itoa_nat,
    List.nil_append]
  by_cases h : sid.IdentifierAuthority < 2 ^ 32
  · simp only [if_pos h, Sid.words, List.singleton_append, List.cons_append,
      String.intercalate, intercalate_go_data, dashed_eq_join, List.map_cons, List.map_map,
      List.nil_append]
    simp [Function.comp, strconv.FormatUint]
    rfl
  · simp only [if_neg h, Sid.words, List.singleton_append, List.cons_append,
      String.intercalate, intercalate_go_data, dashed_eq_join, List.map_cons, List.map_map,
      List.nil_append]
    simp [Function.comp, strconv.FormatUint]
    rfl

theorem Sid_String_eq_spec (sid : Sid) : sid.String = sid.StringSpec := by
  apply String.ext
  rw [Sid_String_data]
  rfl
theorem Sid_words_chars (sid : Sid) :
    ∀ w ∈ sid.words, w ≠ [] ∧ '-' ∉ w := by
  have hdec : ∀ n, Nat.toDigits 10 n ≠ [] ∧ '-' ∉ Nat.toDigits 10 n := fun n =>
    ⟨toDigits_ne_nil 10 (by decide) n,
      fun h => (toDigits_chars 10 (by decide) (by decide) n _ h).1 rfl⟩
  intro w hw
  simp only [Sid.words, List.mem_cons, List.mem_map] at hw
  rcases hw with rfl | rfl | ⟨a, _, rfl⟩
  · exact hdec _
  · by_cases h : sid.IdentifierAuthority < 2 ^ 32
    · rw [if_pos h]
      exact hdec _
    · rw [if_neg h]
      refine ⟨by simp, ?_⟩
      intro hm
      simp only [List.mem_cons] at hm
      rcases hm with h1 | h1 | h1
      · exact absurd h1 (by decide)
      · exact absurd h1 (by decide)
      · exact (toDigits_chars 16 (by decide) (by decide) _ _ h1).1 rfl
  · exact hdec _

theorem dashed_getLast :
    ∀ (ws : List (List Char)) (h : ws ≠ []), ∃ pre, dashed ws = pre ++ ws.getLast h := by
  intro ws
  induction ws with
  | nil => intro h; exact absurd rfl h
  | cons w t ih =>
    intro h
    cases t with
    | nil => exact ⟨['-'], by simp [dashed]⟩
    | cons w2 t2 =>
      obtain ⟨pre, hpre⟩ := ih (by simp)
      refine ⟨'-' :: (w ++ pre), ?_⟩
      rw [List.getLast_cons (by simp)]
      simp only [dashed] at hpre ⊢
      rw [hpre]
      simp [List.append_assoc]

theorem Sid_String_last (sid : Sid) (c : Char)
    (h : sid.String.data.getLast? = some c) : c ≠ '-' := by
  have hne : sid.words ≠ [] := by simp [Sid.words]
  obtain ⟨pre, hpre⟩ := dashed_getLast sid.words hne
  have hw := Sid_words_chars sid _ (List.getLast_mem hne)
  rw [Sid_String_data, hpre] at h
  have e : 'S' :: (pre ++ sid.words.getLast hne) = ('S' :: pre) ++ sid.words.getLast hne := rfl
  rw [e, List.getLast?_append_of_ne_nil _ hw.1] at h
  intro hc
  subst hc
  exact hw.2 (List.mem_of_getLast?_eq_some h)

/-- C13: for every `Sid`, `String()` is the spec's string form: `S`, the revision in
decimal, the authority (in decimal below `2^32`, otherwise `0x` and its hexadecimal
digits) and every sub-authority in decimal, in order, each word preceded by exactly one
dash; no word is empty or contains a dash, the string starts with `S` and does not end
with a dash; the SID with revision 1, authority 5 and sub-authorities 32, 544 is
rendered `S-1-5-32-544`. -/
theorem Sid_String_spec (sid : Sid) :
    sid.String = sid.StringSpec ∧
    sid.String.data = 'S' :: dashed sid.words ∧
    (∀ w ∈ sid.words, w ≠ [] ∧ '-' ∉ w) ∧
    sid.String.data.head? = some 'S' ∧
    (∀ c, sid.String.data.getLast? = some c → c ≠ '-') ∧
    (Sid.mk 1 5 [32, 544]).String = "S-1-5-32-544" := by
  refine ⟨Sid_String_eq_spec sid, Sid_String_data sid, Sid_words_chars sid, ?_,
    Sid_String_last sid, by decide⟩
  rw [Sid_String_data]
  rfl

/-- C14 fails as stated: the authority `0x000001000000` is `16777216`, below `2^32`, and
is rendered in decimal. -/
theorem Sid_String_authority_decimal :
    (0x000001000000 : Nat) < 2 ^ 32 ∧
    (Sid.mk 1 0x000001000000 []).String = "S-1-16777216" ∧
    (Sid.mk 1 0x000001000000 []).String ≠ "S-1-0x1000000" := by decide

/-- C14, amended: for every `Sid` whose `IdentifierAuthority` is `0x000001000000`
(any revision, any sub-authorities) `String()` renders the authority as the decimal
`16777216`; for every `IdentifierAuthority` of at least `2^32` it renders `0x` followed
by hexadecimal digits, all of them among `0..9` and the lowercase `a..f`; so
`0x000100000000` is rendered `0x100000000`. -/
theorem Sid_String_authority (r : Byte) (subs : List Nat) :
    (Sid.mk r 0x000001000000 subs).String.data
      = 'S' :: dashed (Nat.toDigits 10 r.val :: "16777216".data
          :: subs.map (Nat.toDigits 10)) ∧
    (∀ ia, 2 ^ 32 ≤ ia →
      (Sid.mk r ia subs).String.data
        = 'S' :: dashed (Nat.toDigits 10 r.val :: ('0' :: 'x' :: Nat.toDigits 16 ia)
            :: subs.map (Nat.toDigits 10)) ∧
      ∀ c ∈ Nat.toDigits 16 ia,
        c ∈ ['0', '1', '2', '3', '4', '5', '6', '7', '8', '9', 'a', 'b', 'c', 'd', 'e', 'f']) ∧
    (Sid.mk 1 0x000100000000 []).String = "S-1-0x100000000" ∧
    (Sid.mk 1 0xabcdef012345 [32]).String = "S-1-0xabcdef012345-32" := by
  refine ⟨?_, ?_, by decide, by decide⟩
  · rw [Sid_String_data]
    have h : (0x000001000000 : Nat) < 2 ^ 32 := by decide
    have hd : Nat.toDigits 10 0x000001000000 = "16777216".data := by decide
    simp only [Sid.words, if_pos h, hd]
  · intro ia hia
    refine ⟨?_, fun c hc => (toDigits_chars 16 (by decide) (by decide) ia c hc).2.2⟩
    rw [Sid_String_data]
    have h : ¬ ia < 2 ^ 32 := by omega
    simp only [Sid.words, if_neg h]

/-! ## Sid.String is injective -/

theorem dashed_head (ws : List (List Char)) :
    dashed ws = [] ∨ ∃ t, dashed ws = '-' :: t := by
  cases ws with
  | nil => exact Or.inl rfl
  | cons w t => exact Or.inr ⟨_, rfl⟩

theorem word_split :
    ∀ (w w' X X' : List Char), '-' ∉ w → '-' ∉ w' →
      (X = [] ∨ ∃ t, X = '-' :: t) → (X' = [] ∨ ∃ t, X' = '-' :: t) →
      w ++ X = w' ++ X' → w = w' ∧ X = X' := by
  intro w
  induction w with
  | nil =>
    intro w' X X' _ hw' hX _ h
    cases w' with
    | nil => exact ⟨rfl, by simpa using h⟩
    | cons a t =>
      exfalso
      simp only [List.nil_append, List.cons_append] at h
      rcases hX with hX | ⟨t', hX⟩
      · rw [hX] at h
        simp at h
      · rw [hX] at h
        have := (List.cons.inj h).1
        exact hw' (by simp [← this])
  | cons a t ih =>
    intro w' X X' hw hw' hX hX' h
    cases w' with
    | nil =>
      exfalso
      simp only [List.nil_append, List.cons_append] at h
      rcases hX' with hX' | ⟨t', hX'⟩
      · rw [hX'] at h
        simp at h
      · rw [hX'] at h
        have := (List.cons.inj h).1
        exact hw (by simp [this])
    | cons a' t' =>
      simp only [List.cons_append, List.cons.injEq] at h
      obtain ⟨h1, h2⟩ := ih t' X X' (fun hm => hw (by simp [hm])) (fun hm => hw' (by simp [hm]))
        hX hX' h.2
      exact ⟨by rw [h.1, h1], h2⟩

theorem dashed_inj :
    ∀ (ws ws' : List (List Char)), (∀ w ∈ ws, '-' ∉ w) → (∀ w ∈ ws', '-' ∉ w) →
      dashed ws = dashed ws' → ws = ws' := by
  intro ws
  induction ws with
  | nil =>
    intro ws' _ _ h
    cases ws' with
    | nil => rfl
    | cons w t => simp [dashed] at h
  | cons w t ih =>
    intro ws' hws hws' h
    cases ws' with
    | nil => simp [dashed] at h
    | cons w' t' =>
      simp only [dashed, List.cons.injEq, true_and] at h
      obtain ⟨h1, h2⟩ := word_split w w' (dashed t) (dashed t') (hws w (by simp))
        (hws' w' (by simp)) (dashed_head t) (dashed_head t') h
      rw [h1, ih t' (fun x hx => hws x (by simp [hx])) (fun x hx => hws' x (by simp [hx])) h2]

theorem map_toDigits_inj :
    ∀ (l l' : List Nat), l.map (Nat.toDigits 10) = l'.map (Nat.toDigits 10) → l = l' := by
  intro l
  induction l with
  | nil =>
    intro l' h
    cases l' with
    | nil => rfl
    | cons a t => simp at h
  | cons a t ih =>
    intro l' h
    cases l' with
    | nil => simp at h
    | cons a' t' =>
      simp only [List.map_cons, List.cons.injEq] at h
      rw [toDigits_inj 10 (by decide) (by decide) a a' h.1, ih t' h.2]

theorem authority_word_inj (x y : Nat)
    (h : (if x < 2 ^ 32 then Nat.toDigits 10 x else '0' :: 'x' :: Nat.toDigits 16 x)
      = (if y < 2 ^ 32 then Nat.toDigits 10 y else '0' :: 'x' :: Nat.toDigits 16 y)) :
    x = y := by
  have hx : ∀ n l, Nat.toDigits 10 n ≠ '0' :: 'x' :: l := by
    intro n l he
    have := (toDigits_chars 10 (by decide) (by decide) n 'x' (by rw [he]; simp)).2.1
    exact this rfl
  by_cases h1 : x < 2 ^ 32 <;> by_cases h2 : y < 2 ^ 32
  · rw [if_pos h1, if_pos h2] at h
    exact toDigits_inj 10 (by decide) (by decide) x y h
  · rw [if_pos h1, if_neg h2] at h
    exact absurd h (hx x _)
  · rw [if_neg h1, if_pos h2] at h
    exact absurd h.symm (hx y _)
  · rw [if_neg h1, if_neg h2] at h
    simp only [List.cons.injEq, true_and] at h
    exact toDigits_inj 16 (by decide) (by decide) x y h

/-- C20: `Sid.String` is injective: two `Sid` values with the same string have the same
`Revision`, the same `IdentifierAuthority` and the same sub-authorities; a decimal and a
`0x` rendering of the authority never coincide. -/
theorem Sid_String_injective (a b : Sid) (h : a.String = b.String) :
    a.Revision = b.Revision ∧ a.IdentifierAuthority = b.IdentifierAuthority ∧
      a.SubAuthority = b.SubAuthority ∧ a = b := by
  have hd : a.String.data = b.String.data := by rw [h]
  rw [Sid_String_data, Sid_String_data] at hd
  have hw := dashed_inj a.words b.words (fun w hw => (Sid_words_chars a w hw).2)
    (fun w hw => (Sid_words_chars b w hw).2) (List.cons.inj hd).2
  simp only [Sid.words, List.cons.injEq] at hw
  obtain ⟨hr, hia, hsa⟩ := hw
  have e1 : a.Revision = b.Revision :=
    Fin.ext (toDigits_inj 10 (by decide) (by decide) _ _ hr)
  have e2 := authority_word_inj _ _ hia
  have e3 := map_toDigits_inj _ _ hsa
  refine ⟨e1, e2, e3, ?_⟩
  cases a
  cases b
  simp only at e1 e2 e3
  rw [e1, e2, e3]

/-- A witness of C20: the SID `S-1-5-32-544` against itself. -/
theorem Sid_String_injective_witness :
    (Sid.mk 1 5 [32, 544]).Revision = (Sid.mk 1 5 [32, 544]).Revision ∧
    (Sid.mk 1 5 [32, 544]).IdentifierAuthority
      = (Sid.mk 1 5 [32, 544]).IdentifierAuthority ∧
    (Sid.mk 1 5 [32, 544]).SubAuthority = (Sid.mk 1 5 [32, 544]).SubAuthority ∧
    Sid.mk 1 5 [32, 544] = Sid.mk 1 5 [32, 544] :=
  Sid_String_injective (Sid.mk 1 5 [32, 544]) (Sid.mk 1 5 [32, 544]) (by decide)

end Smb2
